import Mathlib

/-!
Shallow embedding of the single-producer/single-consumer queue family in
`WindFlow/HeavyHitter/includes/util/spscq.h` (Lamport queue `lq_*`/`llq_*`,
two-phase batch API `blq_*`, FastForward queue `ffq_*` and improved
FastForward queue `iffq_*`).

Machine integers: every `unsigned int` field is modelled as a `Nat` kept
below `U32 = 2^32`; increments and subtractions that the C code performs in
32-bit unsigned arithmetic are modelled with an explicit `% U32`
(`usub32 a b` is the C expression `a - b` on `unsigned int`).  Slot arrays
(`uintptr_t q[]`, `uintptr_t prod_cache[]`) are modelled as total functions
`Nat → Nat`; the code only ever indexes them at the positions written in the
source.  `sizeof(uintptr_t) = 8` and `SPSCQ_CACHELINE_SIZE = 64`, so one
cache line holds `LINE_ENTRIES = 8` slots.
-/

namespace Spscq

def U32 : Nat := 2 ^ 32

/-- `SPSCQ_CACHELINE_SIZE / sizeof(uintptr_t)` = 64/8. -/
def LINE_ENTRIES : Nat := 8

/-- 32-bit unsigned subtraction `a - b` (both arguments below `U32`). -/
def usub32 (a b : Nat) : Nat := (a + U32 - b) % U32

/-- Pointwise array update, used for stores into the slot arrays. -/
def updQ (f : Nat → Nat) (i v : Nat) : Nat → Nat := fun j => if j = i then v else f j

@[simp] theorem updQ_self (f : Nat → Nat) (i v : Nat) : updQ f i v i = v := by
  simp [updQ]

theorem updQ_ne (f : Nat → Nat) (i v j : Nat) (h : j ≠ i) : updQ f i v j = f j := by
  simp [updQ, h]

/-- `is_power_of_two` from the source: `!x || !(x & (x - 1))`.
Note that it returns true on `x = 0`. -/
def isPowerOfTwoC (x : Nat) : Bool := x == 0 || (x &&& (x - 1)) == 0

/-- `struct Blq`: Lamport-queue control block plus its trailing slot array. -/
structure Blq where
  write_priv : Nat
  read_shadow : Nat
  write : Nat
  read_priv : Nat
  write_shadow : Nat
  read : Nat
  qlen : Nat
  qmask : Nat
  q : Nat → Nat

/-- `blq_init`: validates the length and stores `qlen`/`qmask`; on failure
returns -1 and writes nothing. -/
def blq_init (blq : Blq) (qlen : Nat) : Int × Blq :=
  if qlen < 2 || !(isPowerOfTwoC qlen) then (-1, blq)
  else (0, { blq with qlen := qlen, qmask := qlen - 1 })

/-- `lq_write`: plain Lamport-queue write. -/
def lq_write (q : Blq) (m : Nat) : Int × Blq :=
  let write := q.write
  let next := ((write + 1) % U32) &&& q.qmask
  if next = q.read then (-1, q)
  else (0, { q with q := updQ q.q write m, write := next })

/-- `lq_read`: plain Lamport-queue read; returns 0 when empty. -/
def lq_read (q : Blq) : Nat × Blq :=
  let read := q.read
  if read = q.write then (0, q)
  else (q.q read, { q with read := ((read + 1) % U32) &&& q.qmask })

/-- `llq_write`: Lamport-queue write with a cached read cursor
(`read_shadow`) refreshed only when one cache line of slack is gone. -/
def llq_write (q : Blq) (m : Nat) : Int × Blq :=
  let write := q.write
  let check := ((write + LINE_ENTRIES) % U32) &&& q.qmask
  let rs := if check = q.read_shadow then q.read else q.read_shadow
  if check = rs then (-1, { q with read_shadow := rs })
  else (0,
    { q with
        read_shadow := rs,
        q := updQ q.q write m,
        write := ((write + 1) % U32) &&& q.qmask })

/-- `llq_read`: Lamport-queue read with a cached write cursor. -/
def llq_read (q : Blq) : Nat × Blq :=
  let read := q.read_priv
  if read = q.write_shadow then
    let ws := q.write
    if read = ws then (0, { q with write_shadow := ws })
    else (q.q read,
      { q with
          write_shadow := ws,
          read := ((read + 1) % U32) &&& q.qmask,
          read_priv := ((read + 1) % U32) &&& q.qmask })
  else (q.q read,
    { q with
        read := ((read + 1) % U32) &&& q.qmask,
        read_priv := ((read + 1) % U32) &&& q.qmask })

/-- `blq_wspace`: producer-side space query of the two-phase batch API.
Refreshes `read_shadow` from the published `read` cursor only when the
cached value does not show `needed` slots. -/
def blq_wspace (blq : Blq) (needed : Nat) : Nat × Blq :=
  let space := usub32 (usub32 blq.read_shadow LINE_ENTRIES) blq.write_priv &&& blq.qmask
  if needed ≤ space then (space, blq)
  else
    let rs := blq.read
    (usub32 (usub32 rs LINE_ENTRIES) blq.write_priv &&& blq.qmask,
     { blq with read_shadow := rs })

/-- `blq_write_local`: unchecked store at the private write cursor. -/
def blq_write_local (blq : Blq) (m : Nat) : Blq :=
  { blq with
      q := updQ blq.q (blq.write_priv &&& blq.qmask) m,
      write_priv := (blq.write_priv + 1) % U32 }

/-- `blq_write_publish`: publishes the private write cursor. -/
def blq_write_publish (blq : Blq) : Blq :=
  { blq with write := blq.write_priv }

/-- `blq_rspace`: consumer-side space query of the two-phase batch API. -/
def blq_rspace (blq : Blq) (needed : Nat) : Nat × Blq :=
  let space := usub32 blq.write_shadow blq.read_priv
  if needed ≤ space then (space, blq)
  else
    let ws := blq.write
    (usub32 ws blq.read_priv, { blq with write_shadow := ws })

/-- `blq_read_local`: unchecked load at the private read cursor. -/
def blq_read_local (blq : Blq) : Nat × Blq :=
  (blq.q (blq.read_priv &&& blq.qmask),
   { blq with read_priv := (blq.read_priv + 1) % U32 })

/-- `blq_read_publish`: publishes the private read cursor. -/
def blq_read_publish (blq : Blq) : Blq :=
  { blq with read := blq.read_priv }

/-- `IFFQ_PROD_CACHE_ENTRIES`: size of the producer staging buffer. -/
def IFFQ_PROD_CACHE_ENTRIES : Nat := 256

def EINVAL : Int := 22
def ENOBUFS : Int := 105

/-- `struct Iffq`: FastForward / improved-FastForward control block, its
producer staging buffer `prod_cache` and its trailing slot array. -/
structure Iffq where
  prod_cache : Nat → Nat
  entry_mask : Nat
  line_entries : Nat
  line_mask : Nat
  prod_write : Nat
  prod_check : Nat
  prod_cache_write : Nat
  cons_clear : Nat
  cons_read : Nat
  q : Nat → Nat

/-- `ffq_write`: basic FastForward write; occupancy is read from the slot. -/
def ffq_write (ffq : Iffq) (m : Nat) : Int × Iffq :=
  let idx := ffq.prod_write &&& ffq.entry_mask
  if ffq.q idx ≠ 0 then (-1, ffq)
  else (0,
    { ffq with
        q := updQ ffq.q idx m,
        prod_write := (ffq.prod_write + 1) % U32 })

/-- `ffq_read`: basic FastForward read; clears the slot on success. -/
def ffq_read (ffq : Iffq) : Nat × Iffq :=
  let idx := ffq.cons_read &&& ffq.entry_mask
  let m := ffq.q idx
  if m ≠ 0 then
    (m,
     { ffq with
         q := updQ ffq.q idx 0,
         cons_read := (ffq.cons_read + 1) % U32 })
  else (m, ffq)

/-- The garbage-seeding loop of `iffq_init`: sets slots `0, 1, …, n-1` to 1. -/
def seedOnes (f : Nat → Nat) : Nat → Nat → Nat
  | 0 => f
  | n + 1 => updQ (seedOnes f n) n 1

/-- `iffq_init`: validates `entries`/`line_size`, stores the shared constants
and the initial cursors, and in improved mode seeds the window
`[cons_clear, cons_read)` with non-sentinel garbage.  `line_mask` is the
32-bit complement `~(entries_per_line - 1)`. -/
def iffq_init (ffq : Iffq) (entries line_size improved : Nat) : Int × Iffq :=
  if !(isPowerOfTwoC entries) || !(isPowerOfTwoC line_size)
      || (decide (improved ≠ 0) && decide (entries * 8 ≤ 2 * line_size))
      || line_size < 8 then
    (-EINVAL, ffq)
  else
    let epl := line_size / 8
    let f1 : Iffq :=
      { ffq with
          line_entries := epl,
          line_mask := (U32 - 1) - (epl - 1),
          entry_mask := entries - 1,
          cons_clear := 0,
          cons_read := epl,
          prod_write := epl,
          prod_check := epl,
          prod_cache_write := 0 }
    if improved ≠ 0 then (0, { f1 with q := seedOnes f1.q epl })
    else (0, f1)

/-- `iffq_insert`: improved-FastForward enqueue with the cache-line-ahead
`prod_check` cursor. -/
def iffq_insert (ffq : Iffq) (m : Nat) : Int × Iffq :=
  if ffq.prod_write = ffq.prod_check then
    if ffq.q (((ffq.prod_check + ffq.line_entries) % U32) &&& ffq.entry_mask) ≠ 0 then
      (-ENOBUFS, ffq)
    else
      (0,
       { ffq with
           prod_check := (ffq.prod_check + ffq.line_entries) % U32,
           q := updQ ffq.q (ffq.prod_write &&& ffq.entry_mask) m,
           prod_write := (ffq.prod_write + 1) % U32 })
  else
    (0,
     { ffq with
         q := updQ ffq.q (ffq.prod_write &&& ffq.entry_mask) m,
         prod_write := (ffq.prod_write + 1) % U32 })

/-- `iffq_insert_local`: stages a value in the producer cache. -/
def iffq_insert_local (ffq : Iffq) (m : Nat) : Iffq :=
  { ffq with
      prod_cache := updQ ffq.prod_cache ffq.prod_cache_write m,
      prod_cache_write := (ffq.prod_cache_write + 1) % U32 }

/-- The flush loop of `iffq_insert_publish`: `k` iterations remaining,
reading the staging buffer from index `i`. -/
def pubAux : Nat → Nat → Iffq → Iffq
  | 0, _, f => f
  | k + 1, i, f =>
      pubAux k (i + 1)
        { f with
            q := updQ f.q (f.prod_write &&& f.entry_mask) (f.prod_cache i),
            prod_write := (f.prod_write + 1) % U32 }

/-- `iffq_insert_publish`: flushes the staged batch into the ring and resets
the staging count. -/
def iffq_insert_publish (f : Iffq) : Iffq :=
  { pubAux f.prod_cache_write 0 f with prod_cache_write := 0 }

/-- `iffq_extract`: returns the slot value; advances `cons_read` when it is
non-sentinel.  Never writes the slot array. -/
def iffq_extract (f : Iffq) : Nat × Iffq :=
  let m := f.q (f.cons_read &&& f.entry_mask)
  if m ≠ 0 then (m, { f with cons_read := (f.cons_read + 1) % U32 })
  else (m, f)

/-- The sweep loop of `iffq_clear`: runs until `cons_clear` reaches `s`,
zeroing each slot on the way.  The fuel `U32` dominates the number of
iterations of the C loop, which compares 32-bit cursors for equality. -/
def clearLoop : Nat → Iffq → Nat → Iffq
  | 0, f, _ => f
  | fuel + 1, f, s =>
      if f.cons_clear = s then f
      else clearLoop fuel
        { f with
            q := updQ f.q (f.cons_clear &&& f.entry_mask) 0,
            cons_clear := (f.cons_clear + 1) % U32 } s

/-- `iffq_clear`: sweeps consumed slots back to the sentinel up to
`(cons_read - line_entries) & line_mask`. -/
def iffq_clear (f : Iffq) : Iffq :=
  clearLoop U32 f (usub32 f.cons_read f.line_entries &&& f.line_mask)

/-! ### Arithmetic helpers -/

theorem land_mask (x e : Nat) : x &&& (2 ^ e - 1) = x % 2 ^ e :=
  Nat.and_pow_two_sub_one_eq_mod x e

theorem two_pow_le_u32 (e : Nat) (he : e ≤ 32) : 2 ^ e ≤ U32 := by
  show 2 ^ e ≤ 2 ^ 32
  exact Nat.pow_le_pow_right (by norm_num) he

theorem mod_u32_small (x : Nat) (h : x < U32) : x % U32 = x := Nat.mod_eq_of_lt h

/-- Step of the masked cursor: for `x < 2^e ≤ 2^30`, the C expression
`((x + 1) mod 2^32) & (2^e - 1)` is `(x + 1) mod 2^e`. -/
theorem step_mask (x e : Nat) (he30 : e ≤ 30) (hx : x < 2 ^ e) :
    ((x + 1) % U32) &&& (2 ^ e - 1) = (x + 1) % 2 ^ e := by
  rw [land_mask]
  have h1 : (2 : Nat) ^ e ≤ 2 ^ 30 := Nat.pow_le_pow_right (by norm_num) he30
  have h2 : x + 1 < U32 := by
    have h3 : U32 = 2 ^ 32 := rfl
    have h4 : (2 : Nat) ^ 30 < 2 ^ 32 := by norm_num
    omega
  rw [mod_u32_small _ h2]

/-- Full-slot characterisation: with both cursors reduced below the
capacity `n`, the next write index hits the read cursor exactly when
`n - 1` items are stored. -/
theorem mod_full_iff (n w r : Nat) (hn : 2 ≤ n) (hw : w < n) (hr : r < n) :
    ((w + 1) % n = r ↔ (n + w - r) % n = n - 1) := by
  rcases Nat.lt_or_ge (w + 1) n with h | h
  · rw [Nat.mod_eq_of_lt h]
    rcases le_or_lt r w with h2 | h2
    · have e1 : n + w - r = n + (w - r) := by omega
      rw [e1, Nat.add_mod_left, Nat.mod_eq_of_lt (by omega)]
      omega
    · rw [Nat.mod_eq_of_lt (show n + w - r < n by omega)]
      omega
  · have hwn : w + 1 = n := by omega
    have e1 : (w + 1) % n = 0 := by rw [hwn, Nat.mod_self]
    have e2 : n + w - r = n + (w - r) := by omega
    rw [e1, e2, Nat.add_mod_left, Nat.mod_eq_of_lt (by omega)]
    omega

/-- Empty characterisation: zero items iff the cursors agree. -/
theorem mod_empty_iff (n w r : Nat) (hn : 2 ≤ n) (hw : w < n) (hr : r < n) :
    ((n + w - r) % n = 0 ↔ r = w) := by
  rcases le_or_lt r w with h2 | h2
  · have e1 : n + w - r = n + (w - r) := by omega
    rw [e1, Nat.add_mod_left, Nat.mod_eq_of_lt (by omega)]
    omega
  · rw [Nat.mod_eq_of_lt (show n + w - r < n by omega)]
    omega

/-- Advancing a reduced cursor changes it (capacity at least 2). -/
theorem mod_succ_ne (n r : Nat) (hn : 2 ≤ n) (hr : r < n) : (r + 1) % n ≠ r := by
  rcases Nat.lt_or_ge (r + 1) n with h | h
  · rw [Nat.mod_eq_of_lt h]; omega
  · have : r + 1 = n := by omega
    rw [this, Nat.mod_self]; omega

/-! ### C2: full/empty boundary of the plain Lamport queue -/

/-- Number of unread items of the plain Lamport queue, for reduced cursors:
`(write - read) mod qlen` written without Nat-subtraction truncation. -/
def lqItems (s : Blq) : Nat := (s.qlen + s.write - s.read) % s.qlen

/-- C2: `lq_write` reports full (-1) exactly when the incremented write
cursor equals the authoritative read cursor, i.e. exactly `qlen - 1` items
are present; on failure the state is untouched, otherwise the value is
stored at the write index and the write cursor advances.  `lq_read` yields
the empty outcome (value 0 with untouched state) exactly when the read
cursor equals the authoritative write cursor, i.e. no unread item exists;
otherwise it returns the slot value and advances the read cursor. -/
theorem c2_lq_full_empty_boundary (s : Blq) (m e : Nat)
    (he : 1 ≤ e) (he30 : e ≤ 30)
    (hq : s.qlen = 2 ^ e) (hmsk : s.qmask = s.qlen - 1)
    (hw : s.write < s.qlen) (hr : s.read < s.qlen) :
    ((lq_write s m).1 = -1 ↔ (s.write + 1) % s.qlen = s.read) ∧
    ((s.write + 1) % s.qlen = s.read ↔ lqItems s = s.qlen - 1) ∧
    ((lq_write s m).1 = -1 → (lq_write s m).2 = s) ∧
    ((s.write + 1) % s.qlen ≠ s.read →
       (lq_write s m).1 = 0 ∧
       (lq_write s m).2.write = (s.write + 1) % s.qlen ∧
       (lq_write s m).2.q = updQ s.q s.write m ∧
       (lq_write s m).2.read = s.read ∧
       (lq_write s m).2.qlen = s.qlen) ∧
    (((lq_read s).1 = 0 ∧ (lq_read s).2 = s) ↔ s.read = s.write) ∧
    (lqItems s = 0 ↔ s.read = s.write) ∧
    (s.read ≠ s.write →
       (lq_read s).1 = s.q s.read ∧
       (lq_read s).2.read = (s.read + 1) % s.qlen ∧
       (lq_read s).2.q = s.q ∧
       (lq_read s).2.write = s.write) := by
  have h2n : 2 ≤ s.qlen := by
    rw [hq]
    calc 2 = 2 ^ 1 := rfl
    _ ≤ 2 ^ e := Nat.pow_le_pow_right (by norm_num) he
  have hnext : ((s.write + 1) % U32) &&& s.qmask = (s.write + 1) % s.qlen := by
    rw [hmsk, hq]
    exact step_mask _ _ he30 (hq ▸ hw)
  have hrnext : ((s.read + 1) % U32) &&& s.qmask = (s.read + 1) % s.qlen := by
    rw [hmsk, hq]
    exact step_mask _ _ he30 (hq ▸ hr)
  refine ⟨?_, ?_, ?_, ?_, ?_, ?_, ?_⟩
  · by_cases hfull : (s.write + 1) % s.qlen = s.read
    · simp [lq_write, hnext, hfull]
    · simp [lq_write, hnext, hfull]
  · exact mod_full_iff s.qlen s.write s.read h2n hw hr
  · intro h
    by_cases hfull : (s.write + 1) % s.qlen = s.read
    · simp [lq_write, hnext, hfull]
    · simp [lq_write, hnext, hfull] at h
  · intro hfull
    simp [lq_write, hnext, hfull]
  · constructor
    · intro h
      by_contra hne
      have h2 := congrArg Blq.read h.2
      simp [lq_read, hne] at h2
      exact mod_succ_ne s.qlen s.read h2n hr (hrnext ▸ h2)
    · intro h
      simp [lq_read, h]
  · exact mod_empty_iff s.qlen s.write s.read h2n hw hr |>.trans (by constructor <;> intro h <;> omega) |>.trans (Iff.rfl)
  · intro hne
    simp [lq_read, hne, hrnext]


/-! ### C7: round trip on the plain Lamport queue -/

/-- Successive `lq_write` calls; `none` as soon as one reports full. -/
def lqWriteList : Blq → List Nat → Option Blq
  | s, [] => some s
  | s, v :: vs =>
      let p := lq_write s v
      if p.1 = 0 then lqWriteList p.2 vs else none

/-- `n` successive `lq_read` calls, collecting the returned values. -/
def lqReadN : Nat → Blq → List Nat × Blq
  | 0, s => ([], s)
  | n + 1, s =>
      let p := lq_read s
      let rest := lqReadN n p.2
      (p.1 :: rest.1, rest.2)

/-- The list `[i+1, i+2, …, i+k]`. -/
def seqFrom : Nat → Nat → List Nat
  | _, 0 => []
  | i, k + 1 => (i + 1) :: seqFrom (i + 1) k

/-- The list `[1, 2, …, n]`. -/
def seqList (n : Nat) : List Nat := seqFrom 0 n

/-- All-zero `Blq`, standing for the zeroed allocation handed to `blq_init`. -/
def blqZero : Blq := ⟨0, 0, 0, 0, 0, 0, 0, 0, fun _ => 0⟩

/-- A freshly initialized Lamport queue of capacity `2^e`. -/
def blqFresh (e : Nat) : Blq := (blq_init blqZero (2 ^ e)).2

/-- Intermediate state of the C7 run: write cursor `w`, read cursor `r`,
slot `j` holds `j+1` for `j < w`. -/
def c7st (e w r : Nat) : Blq :=
  ⟨0, 0, w, 0, 0, r, 2 ^ e, 2 ^ e - 1, fun j => if j < w then j + 1 else 0⟩

theorem isPowerOfTwoC_two_pow (e : Nat) : isPowerOfTwoC (2 ^ e) = true := by
  simp [isPowerOfTwoC, land_mask]

theorem blqFresh_eq (e : Nat) (he : 1 ≤ e) : blqFresh e = c7st e 0 0 := by
  have h2 : 2 ≤ 2 ^ e := by
    calc 2 = 2 ^ 1 := rfl
    _ ≤ 2 ^ e := Nat.pow_le_pow_right (by norm_num) he
  have hfun : (fun _ : Nat => (0 : Nat)) = fun j : Nat => if j < 0 then j + 1 else 0 := by
    funext j
    simp
  unfold blqFresh blq_init
  rw [isPowerOfTwoC_two_pow]
  simp only [Bool.not_true, Bool.or_false]
  rw [if_neg (by simp; omega)]
  unfold blqZero c7st
  dsimp only
  rw [hfun]

theorem c7_write_aux (e N : Nat) (he30 : e ≤ 30) (hN : N < 2 ^ e - 1) :
    ∀ k i, i + k ≤ N → lqWriteList (c7st e i 0) (seqFrom i k) = some (c7st e (i + k) 0) := by
  intro k
  induction k with
  | zero => intro i _; simp [seqFrom, lqWriteList]
  | succ k ih =>
      intro i hik
      have hi1 : i + 1 < 2 ^ e := by omega
      have hnext : ((i + 1) % U32) &&& (2 ^ e - 1) = i + 1 := by
        rw [step_mask i e he30 (by omega), Nat.mod_eq_of_lt hi1]
      have hfun : updQ (fun j => if j < i then j + 1 else 0) i (i + 1)
          = fun j => if j < i + 1 then j + 1 else 0 := by
        funext j
        unfold updQ
        dsimp only
        by_cases hj : j = i
        · rw [if_pos hj, if_pos (by omega)]
          omega
        · rw [if_neg hj]
          by_cases hj2 : j < i
          · rw [if_pos hj2, if_pos (by omega)]
          · rw [if_neg hj2, if_neg (by omega)]
      have hwr : lq_write (c7st e i 0) (i + 1) = (0, c7st e (i + 1) 0) := by
        unfold lq_write c7st
        dsimp only
        rw [hnext, if_neg (by omega : ¬ i + 1 = 0), hfun]
      have hidx : i + (k + 1) = (i + 1) + k := by omega
      rw [hidx]
      show lqWriteList (c7st e i 0) (seqFrom i (k + 1)) = _
      unfold seqFrom lqWriteList
      rw [hwr]
      dsimp only
      rw [if_pos rfl]
      exact ih (i + 1) (by omega)

theorem c7_read_aux (e N : Nat) (he30 : e ≤ 30) (hN : N < 2 ^ e - 1) :
    ∀ k i, i + k ≤ N → lqReadN k (c7st e N i) = (seqFrom i k, c7st e N (i + k)) := by
  intro k
  induction k with
  | zero => intro i _; simp [seqFrom, lqReadN]
  | succ k ih =>
      intro i hik
      have hi1 : i + 1 < 2 ^ e := by omega
      have hnext : ((i + 1) % U32) &&& (2 ^ e - 1) = i + 1 := by
        rw [step_mask i e he30 (by omega), Nat.mod_eq_of_lt hi1]
      have hrd : lq_read (c7st e N i) = (i + 1, c7st e N (i + 1)) := by
        unfold lq_read c7st
        dsimp only
        rw [if_neg (by omega : ¬ i = N), hnext, if_pos (by omega : i < N)]
      have hidx : i + (k + 1) = (i + 1) + k := by omega
      rw [hidx]
      show lqReadN (k + 1) (c7st e N i) = _
      unfold lqReadN
      rw [hrd]
      dsimp only
      rw [ih (i + 1) (by omega)]
      show ((i + 1) :: seqFrom (i + 1) k, _) = (seqFrom i (k + 1), _)
      rfl

/-- C7: starting from a freshly initialized empty Lamport queue of capacity
`2^e`, writing `1, 2, …, N` (all writes succeeding) and then reading `N`
times returns exactly `1, 2, …, N` in order. -/
theorem c7_round_trip (e N : Nat) (he : 1 ≤ e) (he30 : e ≤ 30)
    (hN0 : 0 < N) (hN : N < 2 ^ e - 1) :
    ∃ t, lqWriteList (blqFresh e) (seqList N) = some t ∧
      (lqReadN N t).1 = seqList N := by
  refine ⟨c7st e N 0, ?_, ?_⟩
  · rw [blqFresh_eq e he]
    have h := c7_write_aux e N he30 hN N 0 (by omega)
    simpa [seqList] using h
  · have h := c7_read_aux e N he30 hN N 0 (by omega)
    rw [seqList, h]

/-- Witness for C7 at capacity 16 and N = 3. -/
theorem c7_witness :
    ∃ t, lqWriteList (blqFresh 4) (seqList 3) = some t ∧
      (lqReadN 3 t).1 = seqList 3 :=
  c7_round_trip 4 3 (by decide) (by decide) (by decide) (by decide)

/-- Concrete state for the C2 witness: capacity 16, write 3, read 1. -/
def c2s : Blq := ⟨0, 0, 3, 0, 0, 1, 16, 15, fun _ => 0⟩

/-- Witness for C2: at a concrete non-boundary state the write succeeds. -/
theorem c2_witness : (lq_write c2s 7).1 = 0 :=
  ((c2_lq_full_empty_boundary c2s 7 4 (by decide) (by decide) (by decide)
    (by decide) (by decide) (by decide)).2.2.2.1 (by decide)).1


/-! ### C3: sentinel handling in the FastForward family -/

/-- All-zero `Iffq`, standing for the zeroed allocation handed to
`iffq_init`. -/
def iffqZero : Iffq := ⟨fun _ => 0, 0, 0, 0, 0, 0, 0, 0, 0, fun _ => 0⟩

/-- C3 (amended): `ffq_write` and `iffq_insert` never inspect the enqueued
value; their success/failure result is independent of it, so the sentinel
value 0 is accepted exactly when any other value would be — the sentinel
restriction is a usage contract, not enforced at the enqueue boundary. -/
theorem c3_no_sentinel_check :
    ∀ (f : Iffq) (a b : Nat),
      (ffq_write f a).1 = (ffq_write f b).1 ∧
      (iffq_insert f a).1 = (iffq_insert f b).1 := by
  intro f a b
  constructor
  · by_cases hc : f.q (f.prod_write &&& f.entry_mask) ≠ 0
    · simp [ffq_write, hc]
    · simp [ffq_write, hc]
  · by_cases hc1 : f.prod_write = f.prod_check
    · by_cases hc2 :
        f.q (((f.prod_check + f.line_entries) % U32) &&& f.entry_mask) ≠ 0
      · simp [iffq_insert, hc1, hc2]
      · simp [iffq_insert, hc1, hc2]
    · simp [iffq_insert, hc1]

/-- Counterexample for C3 as stated: on a freshly initialized (plain
FastForward) queue, enqueuing the sentinel value 0 returns success from
both `ffq_write` and `iffq_insert`. -/
theorem c3_counterexample :
    (ffq_write (iffq_init iffqZero 16 64 0).2 0).1 = 0 ∧
    (iffq_insert (iffq_init iffqZero 16 64 0).2 0).1 = 0 := by
  decide

/-- Witness for C3 at a concrete state and value pair. -/
theorem c3_witness :
    (ffq_write iffqZero 0).1 = (ffq_write iffqZero 9).1 ∧
    (iffq_insert iffqZero 0).1 = (iffq_insert iffqZero 9).1 :=
  c3_no_sentinel_check iffqZero 0 9

/-! ### C4: init validation -/

/-- C4 (amended): `blq_init` rejects 0, 3, 5, 100 and accepts 2, 4, 1024;
`iffq_init` rejects 3, 5, 100 and accepts 2, 4, 1024 (valid line size),
rejects any line size that is not a power of two or is smaller than 8
bytes, and rejects improved-mode configurations with
`entries * 8 ≤ 2 * line_size` — but `iffq_init` accepts `entries = 0` in
non-improved mode, because `is_power_of_two(0)` returns true. -/
theorem c4_init_validation_amended :
    ((blq_init blqZero 0).1 = -1 ∧ (blq_init blqZero 3).1 = -1 ∧
     (blq_init blqZero 5).1 = -1 ∧ (blq_init blqZero 100).1 = -1 ∧
     (blq_init blqZero 2).1 = 0 ∧ (blq_init blqZero 4).1 = 0 ∧
     (blq_init blqZero 1024).1 = 0) ∧
    ((iffq_init iffqZero 3 64 0).1 = -EINVAL ∧ (iffq_init iffqZero 3 64 1).1 = -EINVAL ∧
     (iffq_init iffqZero 5 64 0).1 = -EINVAL ∧ (iffq_init iffqZero 5 64 1).1 = -EINVAL ∧
     (iffq_init iffqZero 100 64 0).1 = -EINVAL ∧ (iffq_init iffqZero 100 64 1).1 = -EINVAL ∧
     (iffq_init iffqZero 2 64 0).1 = 0 ∧ (iffq_init iffqZero 4 64 0).1 = 0 ∧
     (iffq_init iffqZero 1024 64 0).1 = 0 ∧ (iffq_init iffqZero 1024 64 1).1 = 0) ∧
    ((iffq_init iffqZero 0 64 1).1 = -EINVAL ∧ (iffq_init iffqZero 0 64 0).1 = 0) ∧
    (∀ (f : Iffq) (entries line_size improved : Nat),
       isPowerOfTwoC entries = false →
       (iffq_init f entries line_size improved).1 = -EINVAL) ∧
    (∀ (f : Iffq) (entries line_size improved : Nat),
       isPowerOfTwoC line_size = false →
       (iffq_init f entries line_size improved).1 = -EINVAL) ∧
    (∀ (f : Iffq) (entries line_size improved : Nat),
       improved ≠ 0 → entries * 8 ≤ 2 * line_size →
       (iffq_init f entries line_size improved).1 = -EINVAL) ∧
    (∀ (f : Iffq) (entries line_size improved : Nat),
       line_size < 8 →
       (iffq_init f entries line_size improved).1 = -EINVAL) := by
  refine ⟨by decide, by decide, by decide, ?_, ?_, ?_, ?_⟩
  · intro f entries line_size improved h
    have hb : (!(isPowerOfTwoC entries) || !(isPowerOfTwoC line_size)
        || (decide (improved ≠ 0) && decide (entries * 8 ≤ 2 * line_size))
        || decide (line_size < 8)) = true := by
      rw [h]
      simp
    unfold iffq_init
    rw [if_pos hb]
  · intro f entries line_size improved h
    have hb : (!(isPowerOfTwoC entries) || !(isPowerOfTwoC line_size)
        || (decide (improved ≠ 0) && decide (entries * 8 ≤ 2 * line_size))
        || decide (line_size < 8)) = true := by
      rw [h]
      simp
    unfold iffq_init
    rw [if_pos hb]
  · intro f entries line_size improved h1 h2
    have hb : (!(isPowerOfTwoC entries) || !(isPowerOfTwoC line_size)
        || (decide (improved ≠ 0) && decide (entries * 8 ≤ 2 * line_size))
        || decide (line_size < 8)) = true := by
      rw [decide_eq_true h1, decide_eq_true h2]
      simp
    unfold iffq_init
    rw [if_pos hb]
  · intro f entries line_size improved h
    have hb : (!(isPowerOfTwoC entries) || !(isPowerOfTwoC line_size)
        || (decide (improved ≠ 0) && decide (entries * 8 ≤ 2 * line_size))
        || decide (line_size < 8)) = true := by
      rw [decide_eq_true h]
      simp
    unfold iffq_init
    rw [if_pos hb]

/-- Counterexample for C4 as stated: `iffq_init` accepts `entries = 0` with
a valid line size in non-improved mode (returns 0, not a negative value). -/
theorem c4_counterexample :
    (iffq_init iffqZero 0 64 0).1 = 0 ∧ ¬ (iffq_init iffqZero 0 64 0).1 < 0 := by
  decide

/-- Witness for C4: a non-power-of-two entry count is rejected. -/
theorem c4_witness : (iffq_init iffqZero 24 64 0).1 = -EINVAL :=
  c4_init_validation_amended.2.2.2.1 iffqZero 24 64 0 (by decide)

/-! ### C9: failure atomicity -/

/-- C9: whenever an operation reports failure — a full write, an empty
read, or a rejected initialization — the slot array and every published
cursor (`write`, `read`, `prod_write`, `prod_check`, `cons_read`,
`cons_clear`) are left exactly as before the call; a failed init writes no
field at all.  (`llq_write`/`llq_read` may refresh their private shadow
copies, which are not published cursors.) -/
theorem c9_failure_atomicity :
    (∀ (s : Blq) (m : Nat), (lq_write s m).1 = -1 → (lq_write s m).2 = s) ∧
    (∀ (s : Blq) (m : Nat), (llq_write s m).1 = -1 →
       (llq_write s m).2.q = s.q ∧ (llq_write s m).2.write = s.write ∧
       (llq_write s m).2.read = s.read) ∧
    (∀ (s : Iffq) (m : Nat), (ffq_write s m).1 = -1 → (ffq_write s m).2 = s) ∧
    (∀ (s : Iffq) (m : Nat), (iffq_insert s m).1 = -ENOBUFS → (iffq_insert s m).2 = s) ∧
    (∀ s : Blq, s.read = s.write → (lq_read s).2 = s) ∧
    (∀ s : Blq, s.read_priv = s.write_shadow → s.read_priv = s.write →
       (llq_read s).2.q = s.q ∧ (llq_read s).2.read = s.read ∧
       (llq_read s).2.read_priv = s.read_priv ∧ (llq_read s).2.write = s.write) ∧
    (∀ s : Iffq, s.q (s.cons_read &&& s.entry_mask) = 0 → (ffq_read s).2 = s) ∧
    (∀ s : Iffq, s.q (s.cons_read &&& s.entry_mask) = 0 → (iffq_extract s).2 = s) ∧
    (∀ (s : Blq) (n : Nat), (blq_init s n).1 = -1 → (blq_init s n).2 = s) ∧
    (∀ (s : Iffq) (entries line_size improved : Nat),
       (iffq_init s entries line_size improved).1 ≠ 0 →
       (iffq_init s entries line_size improved).2 = s) := by
  refine ⟨?_, ?_, ?_, ?_, ?_, ?_, ?_, ?_, ?_, ?_⟩
  · intro s m h
    by_cases hc : ((s.write + 1) % U32) &&& s.qmask = s.read
    · simp [lq_write, hc]
    · simp [lq_write, hc] at h
  · intro s m h
    by_cases hc1 : ((s.write + LINE_ENTRIES) % U32) &&& s.qmask = s.read_shadow
    · by_cases hc2 : ((s.write + LINE_ENTRIES) % U32) &&& s.qmask = s.read
      · simp [llq_write, hc1, hc2, hc1.symm.trans hc2]
      · have h3 : s.read_shadow ≠ s.read := fun he => hc2 (hc1.trans he)
        simp [llq_write, hc1, hc2, h3] at h
    · simp [llq_write, hc1] at h
  · intro s m h
    by_cases hc : s.q (s.prod_write &&& s.entry_mask) ≠ 0
    · simp [ffq_write, hc]
    · simp [ffq_write, hc] at h
  · intro s m h
    by_cases hc1 : s.prod_write = s.prod_check
    · by_cases hc2 :
        s.q (((s.prod_check + s.line_entries) % U32) &&& s.entry_mask) ≠ 0
      · simp [iffq_insert, hc1, hc2]
      · simp [iffq_insert, ENOBUFS, hc1, hc2] at h
    · simp [iffq_insert, ENOBUFS, hc1] at h
  · intro s h
    simp [lq_read, h]
  · intro s h1 h2
    simp [llq_read, h1, h2, h1.symm.trans h2]
  · intro s h
    simp [ffq_read, h]
  · intro s h
    simp [iffq_extract, h]
  · intro s n h
    by_cases hc : (decide (n < 2) || !(isPowerOfTwoC n)) = true
    · simp [blq_init, hc]
    · simp [blq_init, hc] at h
  · intro s entries line_size improved h
    by_cases hc : (!(isPowerOfTwoC entries) || !(isPowerOfTwoC line_size)
        || (decide (improved ≠ 0) && decide (entries * 8 ≤ 2 * line_size))
        || decide (line_size < 8)) = true
    · have heq : iffq_init s entries line_size improved = (-EINVAL, s) := by
        unfold iffq_init
        exact if_pos hc
      rw [heq]
    · exfalso
      apply h
      unfold iffq_init
      rw [if_neg hc]
      by_cases hi : improved ≠ 0
      · simp [hi]
      · simp [hi]

/-! ### C6: deferred clearing -/

theorem U32_eq : U32 = 4294967296 := by norm_num [U32]

theorem usub32_exact (a b : Nat) (hba : b ≤ a) (ha : a < U32) : usub32 a b = a - b := by
  rw [U32_eq] at ha
  simp only [usub32, U32_eq]
  omega

/-- Rounding down to a multiple of `2^l` with the 32-bit mask
`~(2^l - 1) = 2^32 - 2^l`. -/
theorem landRoundDown (l x : Nat) (hl : l ≤ 32) (hx : x < U32) :
    x &&& (U32 - 2 ^ l) = x - x % 2 ^ l := by
  have hmul : U32 - 2 ^ l = (2 ^ (32 - l) - 1) <<< l := by
    rw [Nat.shiftLeft_eq, Nat.sub_mul, Nat.one_mul, ← Nat.pow_add]
    rw [show 32 - l + l = 32 from by omega]
    rfl
  have hrhs : x - x % 2 ^ l = (x >>> l) <<< l := by
    rw [Nat.shiftRight_eq_div_pow, Nat.shiftLeft_eq]
    have h := Nat.mod_add_div x (2 ^ l)
    have h2 : 2 ^ l * (x / 2 ^ l) = (x / 2 ^ l) * 2 ^ l := Nat.mul_comm _ _
    omega
  rw [hmul, hrhs]
  apply Nat.eq_of_testBit_eq
  intro i
  rw [Nat.testBit_land, Nat.testBit_shiftLeft, Nat.testBit_shiftLeft,
      Nat.testBit_shiftRight, Nat.testBit_two_pow_sub_one]
  rcases Nat.lt_or_ge i l with hi | hi
  · simp [show ¬ i ≥ l by omega]
  · rcases Nat.lt_or_ge i 32 with hi2 | hi2
    · simp [show i ≥ l by omega, show i - l < 32 - l by omega,
        show l + (i - l) = i by omega]
    · have hbit : x.testBit i = false := by
        apply Nat.testBit_lt_two_pow
        calc x < 2 ^ 32 := hx
        _ ≤ 2 ^ i := Nat.pow_le_pow_right (by norm_num) hi2
      simp [hbit, show l + (i - l) = i by omega]

theorem clearLoop_zero (f : Iffq) (s : Nat) : clearLoop 0 f s = f := rfl

theorem clearLoop_succ (fuel : Nat) (f : Iffq) (s : Nat) :
    clearLoop (fuel + 1) f s =
      if f.cons_clear = s then f
      else clearLoop fuel
        { f with
            q := updQ f.q (f.cons_clear &&& f.entry_mask) 0,
            cons_clear := (f.cons_clear + 1) % U32 } s := rfl

/-- Full characterisation of the `iffq_clear` sweep loop: it advances
`cons_clear` to `s` and zeroes exactly the masked positions of the indices
in `[cons_clear, s)`. -/
theorem clearLoop_spec (fuel : Nat) :
    ∀ (f : Iffq) (s : Nat), f.cons_clear ≤ s → s - f.cons_clear ≤ fuel → s < U32 →
      (clearLoop fuel f s).cons_clear = s ∧
      (clearLoop fuel f s).cons_read = f.cons_read ∧
      (clearLoop fuel f s).prod_write = f.prod_write ∧
      (clearLoop fuel f s).prod_check = f.prod_check ∧
      (clearLoop fuel f s).entry_mask = f.entry_mask ∧
      (clearLoop fuel f s).line_entries = f.line_entries ∧
      (∀ j, (∃ i, i < s ∧ f.cons_clear ≤ i ∧ i &&& f.entry_mask = j) →
         (clearLoop fuel f s).q j = 0) ∧
      (∀ j, ¬ (∃ i, i < s ∧ f.cons_clear ≤ i ∧ i &&& f.entry_mask = j) →
         (clearLoop fuel f s).q j = f.q j) := by
  induction fuel with
  | zero =>
      intro f s h1 h2 h3
      have hcc : f.cons_clear = s := by omega
      refine ⟨hcc, rfl, rfl, rfl, rfl, rfl, ?_, fun j _ => rfl⟩
      intro j hj
      rcases hj with ⟨i, hi1, hi2, _⟩
      omega
  | succ fuel ih =>
      intro f s h1 h2 h3
      rw [clearLoop_succ]
      by_cases hcc : f.cons_clear = s
      · rw [if_pos hcc]
        refine ⟨hcc, rfl, rfl, rfl, rfl, rfl, ?_, fun j _ => rfl⟩
        intro j hj
        rcases hj with ⟨i, hi1, hi2, _⟩
        omega
      · have hlt : f.cons_clear < s := by omega
        have hmod : (f.cons_clear + 1) % U32 = f.cons_clear + 1 := by
          rw [U32_eq] at h3 ⊢
          omega
        rw [if_neg hcc, hmod]
        have hih := ih
          { f with
              q := updQ f.q (f.cons_clear &&& f.entry_mask) 0,
              cons_clear := f.cons_clear + 1 } s
          (by show f.cons_clear + 1 ≤ s; omega)
          (by show s - (f.cons_clear + 1) ≤ fuel; omega)
          h3
        refine ⟨hih.1, hih.2.1, hih.2.2.1, hih.2.2.2.1, hih.2.2.2.2.1,
          hih.2.2.2.2.2.1, ?_, ?_⟩
        · intro j hj
          rcases hj with ⟨i, hi1, hi2, hi3⟩
          by_cases hrest : ∃ i, i < s ∧ f.cons_clear + 1 ≤ i ∧ i &&& f.entry_mask = j
          · exact hih.2.2.2.2.2.2.1 j hrest
          · have hieq : i = f.cons_clear := by
              by_contra hne
              exact hrest ⟨i, hi1, by omega, hi3⟩
            have hq := hih.2.2.2.2.2.2.2 j hrest
            rw [hq]
            show updQ f.q (f.cons_clear &&& f.entry_mask) 0 j = 0
            rw [← hi3, hieq]
            exact updQ_self _ _ _
        · intro j hj
          have hrest : ¬ ∃ i, i < s ∧ f.cons_clear + 1 ≤ i ∧ i &&& f.entry_mask = j := by
            intro hr
            rcases hr with ⟨i, hi1, hi2, hi3⟩
            exact hj ⟨i, hi1, by omega, hi3⟩
          have hju : j ≠ f.cons_clear &&& f.entry_mask := by
            intro he
            exact hj ⟨f.cons_clear, hlt, Nat.le_refl _, he.symm⟩
          have hq := hih.2.2.2.2.2.2.2 j hrest
          rw [hq]
          show updQ f.q (f.cons_clear &&& f.entry_mask) 0 j = f.q j
          exact updQ_ne _ _ _ _ hju

/-- C6: `iffq_extract` never writes the slot array — on a non-sentinel slot
only `cons_read` advances, on a sentinel slot nothing changes — while
`iffq_clear` resets to the sentinel exactly the slots from `cons_clear` up
to, but excluding, `(cons_read - line_entries)` rounded down to a
cache-line boundary, advances `cons_clear` to that line-aligned bound, and
touches no other slot. -/
theorem c6_deferred_clearing (f : Iffq) (l : Nat)
    (hl : l ≤ 32) (hle : f.line_entries = 2 ^ l) (hlm : f.line_mask = U32 - 2 ^ l)
    (hcr1 : f.line_entries ≤ f.cons_read) (hcr2 : f.cons_read < U32)
    (hcc : f.cons_clear ≤
      (f.cons_read - f.line_entries) - (f.cons_read - f.line_entries) % f.line_entries) :
    ((iffq_extract f).2.q = f.q ∧
     (f.q (f.cons_read &&& f.entry_mask) ≠ 0 →
        (iffq_extract f).2.cons_read = (f.cons_read + 1) % U32 ∧
        (iffq_extract f).2.cons_clear = f.cons_clear ∧
        (iffq_extract f).2.prod_write = f.prod_write ∧
        (iffq_extract f).2.prod_check = f.prod_check) ∧
     (f.q (f.cons_read &&& f.entry_mask) = 0 → (iffq_extract f).2 = f)) ∧
    ((iffq_clear f).cons_clear
        = (f.cons_read - f.line_entries) - (f.cons_read - f.line_entries) % f.line_entries ∧
     (∀ j, (∃ i, i < (f.cons_read - f.line_entries) -
                (f.cons_read - f.line_entries) % f.line_entries ∧
              f.cons_clear ≤ i ∧ i &&& f.entry_mask = j) →
        (iffq_clear f).q j = 0) ∧
     (∀ j, ¬ (∃ i, i < (f.cons_read - f.line_entries) -
                (f.cons_read - f.line_entries) % f.line_entries ∧
              f.cons_clear ≤ i ∧ i &&& f.entry_mask = j) →
        (iffq_clear f).q j = f.q j)) := by
  have hs : usub32 f.cons_read f.line_entries &&& f.line_mask
      = (f.cons_read - f.line_entries) - (f.cons_read - f.line_entries) % f.line_entries := by
    rw [usub32_exact _ _ hcr1 hcr2, hlm, hle,
      landRoundDown l _ hl (by omega)]
  constructor
  · refine ⟨?_, ?_, ?_⟩
    · by_cases hm : f.q (f.cons_read &&& f.entry_mask) ≠ 0
      · simp [iffq_extract, hm]
      · simp [iffq_extract, hm]
    · intro hm
      simp [iffq_extract, hm]
    · intro hm
      simp [iffq_extract, hm]
  · have hspec := clearLoop_spec U32 f
      ((f.cons_read - f.line_entries) - (f.cons_read - f.line_entries) % f.line_entries)
      hcc (by omega) (by omega)
    unfold iffq_clear
    rw [hs]
    exact ⟨hspec.1, hspec.2.2.2.2.2.2.1, hspec.2.2.2.2.2.2.2⟩

/-- Concrete state for the C6 witness: one cache line of 8 slots,
`cons_read = 20`, `cons_clear = 0`; the aligned clearing bound is 8. -/
def c6s : Iffq := ⟨fun _ => 0, 31, 8, 4294967288, 0, 0, 0, 0, 20, fun _ => 7⟩

/-- Witness for C6: clearing the concrete state advances `cons_clear` to
the line-aligned bound 8. -/
theorem c6_witness : (iffq_clear c6s).cons_clear = 8 :=
  (c6_deferred_clearing c6s 3 (by decide) (by decide) (by decide)
    (by decide) (by decide) (by decide)).2.1

/-! ### C8: batched local insert and publish -/

/-- Successive `iffq_insert_local` calls staging a list of values. -/
def stageList : Iffq → List Nat → Iffq
  | f, [] => f
  | f, v :: vs => stageList (iffq_insert_local f v) vs

theorem stageList_nil (f : Iffq) : stageList f [] = f := rfl

theorem stageList_cons (f : Iffq) (v : Nat) (vs : List Nat) :
    stageList f (v :: vs) = stageList (iffq_insert_local f v) vs := rfl

theorem pubAux_succ (k i : Nat) (f : Iffq) :
    pubAux (k + 1) i f = pubAux k (i + 1)
      { f with
          q := updQ f.q (f.prod_write &&& f.entry_mask) (f.prod_cache i),
          prod_write := (f.prod_write + 1) % U32 } := rfl

/-- Staging characterisation: `stageList` only touches `prod_cache` and
`prod_cache_write`, appending the values at consecutive cache indices. -/
theorem stageList_spec : ∀ (vs : List Nat) (f : Iffq),
    f.prod_cache_write + vs.length < U32 →
    (stageList f vs).prod_cache_write = f.prod_cache_write + vs.length ∧
    (stageList f vs).prod_write = f.prod_write ∧
    (stageList f vs).entry_mask = f.entry_mask ∧
    (stageList f vs).line_entries = f.line_entries ∧
    (stageList f vs).q = f.q ∧
    (stageList f vs).cons_read = f.cons_read ∧
    (stageList f vs).cons_clear = f.cons_clear ∧
    (stageList f vs).prod_check = f.prod_check ∧
    (∀ t, t < vs.length →
       (stageList f vs).prod_cache (f.prod_cache_write + t) = vs.getD t 0) ∧
    (∀ i, i < f.prod_cache_write → (stageList f vs).prod_cache i = f.prod_cache i) := by
  intro vs
  induction vs with
  | nil =>
      intro f h
      exact ⟨rfl, rfl, rfl, rfl, rfl, rfl, rfl, rfl,
        fun t ht => absurd ht (Nat.not_lt_zero t), fun i _ => rfl⟩
  | cons v vs ih =>
      intro f h
      have hlen : (v :: vs).length = vs.length + 1 := rfl
      rw [hlen] at h
      have hmod : (f.prod_cache_write + 1) % U32 = f.prod_cache_write + 1 := by
        rw [U32_eq] at h ⊢
        omega
      rw [stageList_cons]
      unfold iffq_insert_local
      rw [hmod]
      have hih := ih
        { f with
            prod_cache := updQ f.prod_cache f.prod_cache_write v,
            prod_cache_write := f.prod_cache_write + 1 }
        (by show f.prod_cache_write + 1 + vs.length < U32; omega)
      have h1 : (stageList
          { f with
              prod_cache := updQ f.prod_cache f.prod_cache_write v,
              prod_cache_write := f.prod_cache_write + 1 } vs).prod_cache_write
          = f.prod_cache_write + 1 + vs.length := hih.1
      refine ⟨by rw [h1, hlen]; omega, hih.2.1, hih.2.2.1, hih.2.2.2.1, hih.2.2.2.2.1,
        hih.2.2.2.2.2.1, hih.2.2.2.2.2.2.1, hih.2.2.2.2.2.2.2.1, ?_, ?_⟩
      · intro t ht
        match t with
        | 0 =>
            have hp := hih.2.2.2.2.2.2.2.2.2 f.prod_cache_write (by omega)
            rw [show f.prod_cache_write + 0 = f.prod_cache_write from rfl, hp]
            show updQ f.prod_cache f.prod_cache_write v f.prod_cache_write = v
            exact updQ_self _ _ _
        | t + 1 =>
            have hht : t < vs.length := by
              rw [hlen] at ht
              omega
            have hp : (stageList
                { f with
                    prod_cache := updQ f.prod_cache f.prod_cache_write v,
                    prod_cache_write := f.prod_cache_write + 1 } vs).prod_cache
                (f.prod_cache_write + 1 + t) = vs.getD t 0 :=
              hih.2.2.2.2.2.2.2.2.1 t hht
            rw [show f.prod_cache_write + (t + 1) = f.prod_cache_write + 1 + t from by omega]
            exact hp
      · intro i hi
        have hp := hih.2.2.2.2.2.2.2.2.2 i (by omega)
        rw [hp]
        show updQ f.prod_cache f.prod_cache_write v i = f.prod_cache i
        exact updQ_ne _ _ _ _ (by omega)

/-- Flush-loop characterisation: `pubAux k i f` copies `prod_cache[i..i+k)`
into the ring at masked positions `prod_write + t` and advances
`prod_write` by `k`; everything else, including the staging buffer, is
untouched. -/
theorem pubAux_spec (n : Nat) : ∀ (k i : Nat) (f : Iffq),
    f.entry_mask = 2 ^ n - 1 → f.prod_write + k < U32 → k ≤ 2 ^ n →
    (pubAux k i f).prod_write = f.prod_write + k ∧
    (pubAux k i f).prod_cache = f.prod_cache ∧
    (pubAux k i f).prod_cache_write = f.prod_cache_write ∧
    (pubAux k i f).entry_mask = f.entry_mask ∧
    (pubAux k i f).line_entries = f.line_entries ∧
    (pubAux k i f).cons_read = f.cons_read ∧
    (pubAux k i f).cons_clear = f.cons_clear ∧
    (pubAux k i f).prod_check = f.prod_check ∧
    (∀ t, t < k → (pubAux k i f).q ((f.prod_write + t) % 2 ^ n) = f.prod_cache (i + t)) ∧
    (∀ j, (∀ t, t < k → (f.prod_write + t) % 2 ^ n ≠ j) → (pubAux k i f).q j = f.q j) := by
  intro k
  induction k with
  | zero =>
      intro i f hmask hpw hk
      exact ⟨rfl, rfl, rfl, rfl, rfl, rfl, rfl, rfl,
        fun t ht => absurd ht (Nat.not_lt_zero t), fun j _ => rfl⟩
  | succ k ih =>
      intro i f hmask hpw hk
      have hn0 : 0 < 2 ^ n := Nat.pos_pow_of_pos n (by norm_num)
      have hmod : (f.prod_write + 1) % U32 = f.prod_write + 1 := by
        rw [U32_eq] at hpw ⊢
        omega
      have hidx : f.prod_write &&& f.entry_mask = f.prod_write % 2 ^ n := by
        rw [hmask, land_mask]
      rw [pubAux_succ, hmod, hidx]
      have hih := ih (i + 1)
        { f with
            q := updQ f.q (f.prod_write % 2 ^ n) (f.prod_cache i),
            prod_write := f.prod_write + 1 }
        hmask (by show f.prod_write + 1 + k < U32; omega) (by omega)
      have h1 : (pubAux k (i + 1)
          { f with
              q := updQ f.q (f.prod_write % 2 ^ n) (f.prod_cache i),
              prod_write := f.prod_write + 1 }).prod_write
          = f.prod_write + 1 + k := hih.1
      refine ⟨by rw [h1]; omega, hih.2.1, hih.2.2.1, hih.2.2.2.1, hih.2.2.2.2.1,
        hih.2.2.2.2.2.1, hih.2.2.2.2.2.2.1, hih.2.2.2.2.2.2.2.1, ?_, ?_⟩
      · intro t ht
        match t with
        | 0 =>
            have havoid : ∀ u, u < k →
                (f.prod_write + 1 + u) % 2 ^ n ≠ f.prod_write % 2 ^ n := by
              intro u hu heq
              have hme : f.prod_write + (1 + u) ≡ f.prod_write + 0 [MOD 2 ^ n] := by
                show (f.prod_write + (1 + u)) % 2 ^ n = (f.prod_write + 0) % 2 ^ n
                rw [show f.prod_write + (1 + u) = f.prod_write + 1 + u from by omega]
                rw [show f.prod_write + 0 = f.prod_write from rfl]
                exact heq
              have hz : 1 + u ≡ 0 [MOD 2 ^ n] :=
                Nat.ModEq.add_left_cancel' f.prod_write hme
              have hdvd : 2 ^ n ∣ 1 + u := Nat.modEq_zero_iff_dvd.1 hz
              have hle : 2 ^ n ≤ 1 + u := Nat.le_of_dvd (by omega) hdvd
              omega
            have hu := hih.2.2.2.2.2.2.2.2.2 (f.prod_write % 2 ^ n)
              (fun u hu heq => havoid u hu heq)
            rw [show f.prod_write + 0 = f.prod_write from rfl, hu]
            show updQ f.q (f.prod_write % 2 ^ n) (f.prod_cache i) (f.prod_write % 2 ^ n)
              = f.prod_cache (i + 0)
            rw [show i + 0 = i from rfl]
            exact updQ_self _ _ _
        | t + 1 =>
            have hht : t < k := by omega
            have hp : (pubAux k (i + 1)
                { f with
                    q := updQ f.q (f.prod_write % 2 ^ n) (f.prod_cache i),
                    prod_write := f.prod_write + 1 }).q
                ((f.prod_write + 1 + t) % 2 ^ n) = f.prod_cache (i + 1 + t) :=
              hih.2.2.2.2.2.2.2.2.1 t hht
            rw [show f.prod_write + (t + 1) = f.prod_write + 1 + t from by omega,
              show i + (t + 1) = i + 1 + t from by omega]
            exact hp
      · intro j hj
        have hrest : ∀ u, u < k → (f.prod_write + 1 + u) % 2 ^ n ≠ j := by
          intro u hu
          have := hj (u + 1) (by omega)
          rwa [show f.prod_write + (u + 1) = f.prod_write + 1 + u from by omega] at this
        have hu := hih.2.2.2.2.2.2.2.2.2 j hrest
        rw [hu]
        show updQ f.q (f.prod_write % 2 ^ n) (f.prod_cache i) j = f.q j
        refine updQ_ne _ _ _ _ ?_
        have := hj 0 (by omega)
        rw [show f.prod_write + 0 = f.prod_write from rfl] at this
        omega

/-- C8 (amended): `iffq_insert_local` stages values into the fixed-size
side buffer `prod_cache`, whose capacity is `IFFQ_PROD_CACHE_ENTRIES = 256`
entries — a constant independent of the cache-line size, not
`line_size / sizeof(uintptr_t)` entries; `iffq_insert_publish` then writes
every staged value into the ring in staging order, advancing `prod_write`
by one per staged item, and resets the staging count to zero, so after
publish the ring holds the staged values at consecutive masked indices. -/
theorem c8_batched_insert_amended (f : Iffq) (vs : List Nat) (n : Nat)
    (hmask : f.entry_mask = 2 ^ n - 1) (hc0 : f.prod_cache_write = 0)
    (hlen : vs.length ≤ 2 ^ n) (hlenU : vs.length < U32)
    (hpw : f.prod_write + vs.length < U32) :
    IFFQ_PROD_CACHE_ENTRIES = 256 ∧
    (stageList f vs).prod_cache_write = vs.length ∧
    (∀ t, t < vs.length → (stageList f vs).prod_cache t = vs.getD t 0) ∧
    (iffq_insert_publish (stageList f vs)).prod_cache_write = 0 ∧
    (iffq_insert_publish (stageList f vs)).prod_write = f.prod_write + vs.length ∧
    (∀ t, t < vs.length →
       (iffq_insert_publish (stageList f vs)).q ((f.prod_write + t) % 2 ^ n)
         = vs.getD t 0) ∧
    (∀ j, (∀ t, t < vs.length → (f.prod_write + t) % 2 ^ n ≠ j) →
       (iffq_insert_publish (stageList f vs)).q j = f.q j) := by
  have hst := stageList_spec vs f (by omega)
  have hcw : (stageList f vs).prod_cache_write = vs.length := by
    rw [hst.1, hc0]
    omega
  have hpub := pubAux_spec n vs.length 0 (stageList f vs)
    (by rw [hst.2.2.1]; exact hmask)
    (by rw [hst.2.1]; omega) hlen
  have hpubeq : iffq_insert_publish (stageList f vs)
      = { pubAux vs.length 0 (stageList f vs) with prod_cache_write := 0 } := by
    unfold iffq_insert_publish
    rw [hcw]
  refine ⟨rfl, hcw, ?_, ?_, ?_, ?_, ?_⟩
  · intro t ht
    have := hst.2.2.2.2.2.2.2.2.1 t ht
    rw [hc0, Nat.zero_add] at this
    exact this
  · rw [hpubeq]
  · rw [hpubeq]
    show (pubAux vs.length 0 (stageList f vs)).prod_write = f.prod_write + vs.length
    rw [hpub.1, hst.2.1]
  · intro t ht
    rw [hpubeq]
    show (pubAux vs.length 0 (stageList f vs)).q ((f.prod_write + t) % 2 ^ n)
      = vs.getD t 0
    have hh := hpub.2.2.2.2.2.2.2.2.1 t ht
    rw [hst.2.1] at hh
    rw [hh, Nat.zero_add]
    have := hst.2.2.2.2.2.2.2.2.1 t ht
    rw [hc0, Nat.zero_add] at this
    exact this
  · intro j hj
    rw [hpubeq]
    show (pubAux vs.length 0 (stageList f vs)).q j = f.q j
    have hh := hpub.2.2.2.2.2.2.2.2.2 j (by rw [hst.2.1]; exact hj)
    rw [hh, hst.2.2.2.2.1]

/-- Counterexample for C8 as stated: with `line_size = 64` (8 slots per
line) the staging buffer happily holds 9 values — its capacity is the
constant 256, not one cache line — and `iffq_insert_publish` flushes all
9 into the ring. -/
theorem c8_counterexample :
    (stageList (iffq_init iffqZero 64 64 1).2
        [1, 2, 3, 4, 5, 6, 7, 8, 9]).prod_cache_write = 9 ∧
    (stageList (iffq_init iffqZero 64 64 1).2
        [1, 2, 3, 4, 5, 6, 7, 8, 9]).line_entries = 8 ∧
    ¬ ((stageList (iffq_init iffqZero 64 64 1).2
        [1, 2, 3, 4, 5, 6, 7, 8, 9]).prod_cache_write ≤
       (stageList (iffq_init iffqZero 64 64 1).2
        [1, 2, 3, 4, 5, 6, 7, 8, 9]).line_entries) ∧
    (iffq_insert_publish (stageList (iffq_init iffqZero 64 64 1).2
        [1, 2, 3, 4, 5, 6, 7, 8, 9])).prod_write = 17 ∧
    (iffq_insert_publish (stageList (iffq_init iffqZero 64 64 1).2
        [1, 2, 3, 4, 5, 6, 7, 8, 9])).q 16 = 9 := by
  decide

/-- Witness for C8: staging `[4, 5, 6]` on a fresh improved queue and
publishing stores 5 at ring index 9. -/
theorem c8_witness :
    (iffq_insert_publish (stageList (iffq_init iffqZero 64 64 1).2 [4, 5, 6])).q 9 = 5 :=
  (c8_batched_insert_amended (iffq_init iffqZero 64 64 1).2 [4, 5, 6] 6
    (by decide) (by decide) (by decide) (by decide) (by decide)).2.2.2.2.2.1 1 (by decide)

/-! ### C5: usable capacity of the improved FastForward queue -/

/-- `k` successive `iffq_insert` calls with value `v`; `none` as soon as
one reports full. -/
def iffq_insertN (f : Iffq) (v : Nat) : Nat → Option Iffq
  | 0 => some f
  | k + 1 =>
      let p := iffq_insert f v
      if p.1 = 0 then iffq_insertN p.2 v k else none

theorem insertN_succ (f : Iffq) (v k : Nat) :
    iffq_insertN f v (k + 1) =
      (if (iffq_insert f v).1 = 0 then iffq_insertN (iffq_insert f v).2 v k else none) := rfl

theorem seedOnes_spec (f : Nat → Nat) : ∀ n j, seedOnes f n j = if j < n then 1 else f j := by
  intro n
  induction n with
  | zero => intro j; simp [seedOnes]
  | succ n ih =>
      intro j
      show updQ (seedOnes f n) n 1 j = _
      by_cases hj : j = n
      · rw [hj, updQ_self, if_pos (by omega)]
      · rw [updQ_ne _ _ _ _ hj, ih j]
        by_cases hj2 : j < n
        · rw [if_pos hj2, if_pos (by omega)]
        · rw [if_neg hj2, if_neg (by omega)]

/-- Producer-side invariant of the C5 run after `j` successful inserts on a
fresh improved-FastForward queue: `entries = E` slots, `line_entries = L`,
slots `[0, L)` hold the seeding garbage 1, slots `[L, L+j)` hold the
inserted value, everything at or beyond `L+j` is still the sentinel, and
`prod_check` is the unique multiple of `L` in `[prod_write, prod_write+L)`. -/
def c5inv (E L v j : Nat) (s : Iffq) : Prop :=
  s.prod_write = L + j ∧
  s.prod_write ≤ s.prod_check ∧
  s.prod_check < s.prod_write + L ∧
  L ∣ s.prod_check ∧
  s.entry_mask = E - 1 ∧
  s.line_entries = L ∧
  (∀ i, i < L → s.q i = 1) ∧
  (∀ i, L ≤ i → i < L + j → s.q i = v) ∧
  (∀ i, L + j ≤ i → s.q i = 0)

theorem c5_step (E L v n l j : Nat) (hE : E = 2 ^ n) (hL : L = 2 ^ l)
    (hn : n ≤ 30) (hLE : 4 * L ≤ E) (hj : j < E - 2 * L)
    (s : Iffq) (hinv : c5inv E L v j s) :
    (iffq_insert s v).1 = 0 ∧ c5inv E L v (j + 1) (iffq_insert s v).2 := by
  obtain ⟨hpw, hpc1, hpc2, hdvd, hmask, hle, hq1, hq2, hq3⟩ := hinv
  have hL1 : 1 ≤ L := hL ▸ Nat.one_le_two_pow
  have hE30 : E ≤ 1073741824 := by
    rw [hE]
    calc (2:Nat) ^ n ≤ 2 ^ 30 := Nat.pow_le_pow_right (by norm_num) hn
    _ = 1073741824 := by norm_num
  have hidx : s.prod_write &&& s.entry_mask = L + j := by
    rw [hpw, hmask, hE, land_mask, ← hE, Nat.mod_eq_of_lt (by omega)]
  have hpw1 : (s.prod_write + 1) % U32 = L + j + 1 := by
    rw [hpw, U32_eq]
    omega
  by_cases hpc : s.prod_write = s.prod_check
  · have hpcval : s.prod_check = L + j := by rw [← hpc, hpw]
    have hchk : ((s.prod_check + s.line_entries) % U32) &&& s.entry_mask = L + j + L := by
      rw [hpcval, hle, hmask]
      rw [show (L + j + L) % U32 = L + j + L from by rw [U32_eq]; omega]
      rw [hE, land_mask, ← hE, Nat.mod_eq_of_lt (by omega)]
    have hzero : s.q (L + j + L) = 0 := hq3 _ (by omega)
    have hins : iffq_insert s v =
        (0, { s with
                prod_check := (s.prod_check + s.line_entries) % U32,
                q := updQ s.q (s.prod_write &&& s.entry_mask) v,
                prod_write := (s.prod_write + 1) % U32 }) := by
      unfold iffq_insert
      rw [if_pos hpc, if_neg (by rw [hchk, hzero]; simp)]
    rw [hins]
    have hpcn : (s.prod_check + s.line_entries) % U32 = L + j + L := by
      rw [hpcval, hle, U32_eq]
      omega
    refine ⟨rfl, ?_, ?_, ?_, ?_, hmask, hle, ?_, ?_, ?_⟩
    · show (s.prod_write + 1) % U32 = L + (j + 1)
      rw [hpw1]
      omega
    · show (s.prod_write + 1) % U32 ≤ (s.prod_check + s.line_entries) % U32
      rw [hpw1, hpcn]
      omega
    · show (s.prod_check + s.line_entries) % U32 < (s.prod_write + 1) % U32 + L
      rw [hpw1, hpcn]
      omega
    · show L ∣ (s.prod_check + s.line_entries) % U32
      rw [hpcn, show L + j + L = (L + j) + L from rfl]
      exact dvd_add (hpcval ▸ hdvd) dvd_rfl
    · intro i hi
      show updQ s.q (s.prod_write &&& s.entry_mask) v i = 1
      rw [hidx, updQ_ne _ _ _ _ (by omega)]
      exact hq1 i hi
    · intro i hi1 hi2
      show updQ s.q (s.prod_write &&& s.entry_mask) v i = v
      rw [hidx]
      by_cases hieq : i = L + j
      · rw [hieq, updQ_self]
      · rw [updQ_ne _ _ _ _ hieq]
        exact hq2 i hi1 (by omega)
    · intro i hi
      show updQ s.q (s.prod_write &&& s.entry_mask) v i = 0
      rw [hidx, updQ_ne _ _ _ _ (by omega)]
      exact hq3 i (by omega)
  · have hins : iffq_insert s v =
        (0, { s with
                q := updQ s.q (s.prod_write &&& s.entry_mask) v,
                prod_write := (s.prod_write + 1) % U32 }) := by
      unfold iffq_insert
      rw [if_neg hpc]
    rw [hins]
    refine ⟨rfl, ?_, ?_, ?_, hdvd, hmask, hle, ?_, ?_, ?_⟩
    · show (s.prod_write + 1) % U32 = L + (j + 1)
      rw [hpw1]
      omega
    · show (s.prod_write + 1) % U32 ≤ s.prod_check
      rw [hpw1]
      omega
    · show s.prod_check < (s.prod_write + 1) % U32 + L
      rw [hpw1]
      omega
    · intro i hi
      show updQ s.q (s.prod_write &&& s.entry_mask) v i = 1
      rw [hidx, updQ_ne _ _ _ _ (by omega)]
      exact hq1 i hi
    · intro i hi1 hi2
      show updQ s.q (s.prod_write &&& s.entry_mask) v i = v
      rw [hidx]
      by_cases hieq : i = L + j
      · rw [hieq, updQ_self]
      · rw [updQ_ne _ _ _ _ hieq]
        exact hq2 i hi1 (by omega)
    · intro i hi
      show updQ s.q (s.prod_write &&& s.entry_mask) v i = 0
      rw [hidx, updQ_ne _ _ _ _ (by omega)]
      exact hq3 i (by omega)

theorem c5_run (E L v n l : Nat) (hE : E = 2 ^ n) (hL : L = 2 ^ l)
    (hn : n ≤ 30) (hLE : 4 * L ≤ E) :
    ∀ k j s, c5inv E L v j s → j + k ≤ E - 2 * L →
      ∃ s2, iffq_insertN s v k = some s2 ∧ c5inv E L v (j + k) s2 := by
  intro k
  induction k with
  | zero => exact fun j s hin _ => ⟨s, rfl, hin⟩
  | succ k ih =>
      intro j s hin hjk
      have hstep := c5_step E L v n l j hE hL hn hLE (by omega) s hin
      obtain ⟨s2, h1, h2⟩ := ih (j + 1) (iffq_insert s v).2 hstep.2 (by omega)
      refine ⟨s2, ?_, ?_⟩
      · rw [insertN_succ, if_pos hstep.1]
        exact h1
      · rw [show j + (k + 1) = j + 1 + k from by omega]
        exact h2

theorem c5_final (E L v n l : Nat) (hE : E = 2 ^ n) (hL : L = 2 ^ l)
    (hn : n ≤ 30) (hln : l + 2 ≤ n)
    (s : Iffq) (hinv : c5inv E L v (E - 2 * L) s) :
    (iffq_insert s v).1 = -ENOBUFS ∧ (iffq_insert s v).2 = s := by
  obtain ⟨hpw, hpc1, hpc2, hdvd, hmask, hle, hq1, hq2, hq3⟩ := hinv
  have hL1 : 1 ≤ L := hL ▸ Nat.one_le_two_pow
  have hL0 : 0 < L := hL1
  have hLE : 4 * L ≤ E := by
    rw [hE, hL]
    calc 4 * 2 ^ l = 2 ^ (l + 2) := by rw [pow_add]; ring
    _ ≤ 2 ^ n := Nat.pow_le_pow_right (by norm_num) (by omega)
  have hE30 : E ≤ 1073741824 := by
    rw [hE]
    calc (2:Nat) ^ n ≤ 2 ^ 30 := Nat.pow_le_pow_right (by norm_num) hn
    _ = 1073741824 := by norm_num
  have hpwval : s.prod_write = E - L := by
    rw [hpw]
    omega
  have hdvdw : L ∣ s.prod_write := by
    rw [hpwval, hE, hL]
    exact Nat.dvd_sub' (pow_dvd_pow 2 (by omega)) dvd_rfl
  have hpceq : s.prod_check = s.prod_write := by
    obtain ⟨c, hc⟩ := hdvd
    obtain ⟨d, hd⟩ := hdvdw
    rw [hc, hd] at hpc1 hpc2 ⊢
    have h1 : d ≤ c := Nat.le_of_mul_le_mul_left hpc1 hL0
    have h2 : c < d + 1 := by
      by_contra hcon
      push_neg at hcon
      have h3 : L * (d + 1) ≤ L * c := Nat.mul_le_mul_left L hcon
      rw [Nat.mul_add, Nat.mul_one] at h3
      omega
    rw [show c = d from by omega]
  have hchk : ((s.prod_check + s.line_entries) % U32) &&& s.entry_mask = 0 := by
    rw [hpceq, hpwval, hle]
    rw [show E - L + L = E from by omega]
    rw [show E % U32 = E from by rw [U32_eq]; omega]
    rw [hmask, hE, land_mask, Nat.mod_self]
  have hone : s.q 0 = 1 := hq1 0 hL0
  have hins : iffq_insert s v = (-ENOBUFS, s) := by
    unfold iffq_insert
    rw [if_pos hpceq.symm, if_pos (by rw [hchk, hone]; norm_num)]
  rw [hins]
  exact ⟨rfl, rfl⟩

theorem c5_init (n l : Nat) (hln : l + 2 ≤ n) :
    iffq_init iffqZero (2 ^ n) (2 ^ (l + 3)) 1 =
      (0, ⟨fun _ => 0, 2 ^ n - 1, 2 ^ l, (U32 - 1) - (2 ^ l - 1), 2 ^ l, 2 ^ l, 0, 0, 2 ^ l,
        seedOnes (fun _ => 0) (2 ^ l)⟩) := by
  have hepl : 2 ^ (l + 3) / 8 = 2 ^ l := by
    rw [pow_add]
    norm_num
  have h1 : ¬ ((2:Nat) ^ n * 8 ≤ 2 * 2 ^ (l + 3)) := by
    have e1 : (2:Nat) ^ n * 8 = 2 ^ (n + 3) := by
      rw [pow_add]
      norm_num
    have e2 : 2 * (2:Nat) ^ (l + 3) = 2 ^ (l + 4) := by
      rw [show l + 4 = l + 3 + 1 from rfl, pow_succ]
      ring
    rw [e1, e2]
    intro hcon
    have h3 := (Nat.pow_le_pow_iff_right (by norm_num : 1 < 2)).1 hcon
    omega
  have h2 : ¬ ((2:Nat) ^ (l + 3) < 8) := by
    have h3 : (2:Nat) ^ 3 ≤ 2 ^ (l + 3) := Nat.pow_le_pow_right (by norm_num) (by omega)
    norm_num at h3
    omega
  have hcond : (!(isPowerOfTwoC (2 ^ n)) || !(isPowerOfTwoC (2 ^ (l + 3)))
      || (decide ((1:Nat) ≠ 0) && decide (2 ^ n * 8 ≤ 2 * 2 ^ (l + 3)))
      || decide ((2:Nat) ^ (l + 3) < 8)) = false := by
    simp [isPowerOfTwoC_two_pow, h1, h2]
  unfold iffq_init
  rw [hcond]
  rw [if_neg (by simp)]
  dsimp only
  rw [if_pos (by norm_num : (1:Nat) ≠ 0)]
  rw [hepl]
  rfl

theorem c5_init_inv (n l v : Nat) (hln : l + 2 ≤ n) :
    c5inv (2 ^ n) (2 ^ l) v 0 (iffq_init iffqZero (2 ^ n) (2 ^ (l + 3)) 1).2 := by
  have hL1 : 1 ≤ (2:Nat) ^ l := Nat.one_le_two_pow
  rw [c5_init n l hln]
  refine ⟨rfl, Nat.le_refl _, by show (2:Nat) ^ l < 2 ^ l + 2 ^ l; omega, dvd_rfl,
    rfl, rfl, ?_, ?_, ?_⟩
  · intro i hi
    show seedOnes (fun _ => 0) (2 ^ l) i = 1
    rw [seedOnes_spec, if_pos hi]
  · intro i hi1 hi2
    omega
  · intro i hi
    show seedOnes (fun _ => 0) (2 ^ l) i = 0
    rw [seedOnes_spec, if_neg (by omega)]

/-- C5: on a queue freshly initialized by `iffq_init` in improved mode with
`entries = 2^n` slots and `line_size = 2^(l+3)` bytes (so `2^l` slots per
cache line), with no consumer activity `iffq_insert` succeeds exactly
`entries - 2 * line_entries` times and the next call returns `-ENOBUFS`
with the state untouched: the producer reports full exactly when the ring
has zero free slots beyond the reserved-line slack. -/
theorem c5_iffq_usable_capacity (n l v : Nat) (hln : l + 2 ≤ n) (hn : n ≤ 30) :
    (iffq_init iffqZero (2 ^ n) (2 ^ (l + 3)) 1).1 = 0 ∧
    ∃ s2, iffq_insertN (iffq_init iffqZero (2 ^ n) (2 ^ (l + 3)) 1).2 v
        (2 ^ n - 2 * 2 ^ l) = some s2 ∧
      (iffq_insert s2 v).1 = -ENOBUFS ∧ (iffq_insert s2 v).2 = s2 := by
  have hLE : 4 * 2 ^ l ≤ 2 ^ n := by
    calc 4 * 2 ^ l = 2 ^ (l + 2) := by rw [pow_add]; ring
    _ ≤ 2 ^ n := Nat.pow_le_pow_right (by norm_num) (by omega)
  constructor
  · rw [c5_init n l hln]
  · obtain ⟨s2, h1, h2⟩ := c5_run (2 ^ n) (2 ^ l) v n l rfl rfl hn hLE
      (2 ^ n - 2 * 2 ^ l) 0 (iffq_init iffqZero (2 ^ n) (2 ^ (l + 3)) 1).2
      (c5_init_inv n l v hln) (by omega)
    rw [Nat.zero_add] at h2
    exact ⟨s2, h1, c5_final (2 ^ n) (2 ^ l) v n l rfl rfl hn hln s2 h2⟩

/-- Witness for C5 with 32 entries and 64-byte lines: 16 inserts succeed,
the 17th reports full. -/
theorem c5_witness :
    (iffq_init iffqZero (2 ^ 5) (2 ^ 6) 1).1 = 0 ∧
    ∃ s2, iffq_insertN (iffq_init iffqZero (2 ^ 5) (2 ^ 6) 1).2 7
        (2 ^ 5 - 2 * 2 ^ 3) = some s2 ∧
      (iffq_insert s2 7).1 = -ENOBUFS ∧ (iffq_insert s2 7).2 = s2 :=
  c5_iffq_usable_capacity 5 3 7 (by decide) (by decide)

/-! ### C1: batch/plain equivalence of the two-phase Lamport API -/

/-- Successive `blq_write_local` calls staging a list of values. -/
def blqWriteLocalList : Blq → List Nat → Blq
  | s, [] => s
  | s, v :: vs => blqWriteLocalList (blq_write_local s v) vs

/-- `write_local` for each value, then one `write_publish`. -/
def batchPublish (s : Blq) (vs : List Nat) : Blq :=
  blq_write_publish (blqWriteLocalList s vs)

theorem blqWriteLocalList_cons (s : Blq) (v : Nat) (vs : List Nat) :
    blqWriteLocalList s (v :: vs) = blqWriteLocalList (blq_write_local s v) vs := rfl


/-- Lock-step simulation between the batched local writes and the plain
`lq_write` loop: equal slot arrays, and the free-running private cursor
agrees with the masked plain cursor modulo the capacity. -/
theorem c1_aux (e : Nat) (he30 : e ≤ 30) : ∀ (vs : List Nat) (sb sl t : Blq),
    sb.qmask = 2 ^ e - 1 → sl.qmask = 2 ^ e - 1 →
    sb.q = sl.q → sb.write_priv % 2 ^ e = sl.write → sl.write < 2 ^ e →
    sb.write_priv + vs.length < U32 →
    lqWriteList sl vs = some t →
    (blqWriteLocalList sb vs).q = t.q ∧
    (blqWriteLocalList sb vs).write_priv % 2 ^ e = t.write ∧
    (blqWriteLocalList sb vs).write_priv = sb.write_priv + vs.length := by
  intro vs
  induction vs with
  | nil =>
      intro sb sl t hbm hlm hq hwrel hwlt hnov hsucc
      have ht : sl = t := Option.some.inj hsucc
      refine ⟨?_, ?_, rfl⟩
      · show sb.q = t.q
        rw [hq, ht]
      · show sb.write_priv % 2 ^ e = t.write
        rw [hwrel, ht]
  | cons v vs ih =>
      intro sb sl t hbm hlm hq hwrel hwlt hnov hsucc
      have hlen : (v :: vs).length = vs.length + 1 := rfl
      rw [hlen] at hnov
      by_cases hfull : ((sl.write + 1) % U32) &&& sl.qmask = sl.read
      · exfalso
        have hwr : lq_write sl v = (-1, sl) := by
          unfold lq_write
          rw [if_pos hfull]
        have hnone : lqWriteList sl (v :: vs) = none := by
          show (if (lq_write sl v).1 = 0 then lqWriteList (lq_write sl v).2 vs else none) = none
          rw [hwr]
          simp
        rw [hnone] at hsucc
        exact Option.noConfusion hsucc
      · have hwr : lq_write sl v =
            (0,
             { sl with
                 q := updQ sl.q sl.write v,
                 write := ((sl.write + 1) % U32) &&& sl.qmask }) := by
          unfold lq_write
          rw [if_neg hfull]
        have hsucc2 : lqWriteList
            { sl with
                q := updQ sl.q sl.write v,
                write := ((sl.write + 1) % U32) &&& sl.qmask } vs = some t := by
          have hstep : lqWriteList sl (v :: vs) = lqWriteList
              { sl with
                  q := updQ sl.q sl.write v,
                  write := ((sl.write + 1) % U32) &&& sl.qmask } vs := by
            show (if (lq_write sl v).1 = 0 then lqWriteList (lq_write sl v).2 vs else none) = _
            rw [hwr]
            simp
          rw [← hstep]
          exact hsucc
        have hnext : ((sl.write + 1) % U32) &&& sl.qmask = (sl.write + 1) % 2 ^ e := by
          rw [hlm]
          exact step_mask sl.write e he30 hwlt
        have hbidx : sb.write_priv &&& sb.qmask = sl.write := by
          rw [hbm, land_mask, hwrel]
        have hbpw : (sb.write_priv + 1) % U32 = sb.write_priv + 1 := by
          rw [U32_eq] at hnov ⊢
          omega
        have hwrel2 : (sb.write_priv + 1) % 2 ^ e = (sl.write + 1) % 2 ^ e := by
          have h1 : sb.write_priv ≡ sl.write [MOD 2 ^ e] := by
            show sb.write_priv % 2 ^ e = sl.write % 2 ^ e
            rw [hwrel, Nat.mod_eq_of_lt hwlt]
          exact h1.add_right 1
        rw [blqWriteLocalList_cons]
        have hres := ih (blq_write_local sb v)
          { sl with
              q := updQ sl.q sl.write v,
              write := ((sl.write + 1) % U32) &&& sl.qmask } t
          hbm hlm
          (by
            show updQ sb.q (sb.write_priv &&& sb.qmask) v = updQ sl.q sl.write v
            rw [hbidx, hq])
          (by
            show (sb.write_priv + 1) % U32 % 2 ^ e = ((sl.write + 1) % U32) &&& sl.qmask
            rw [hbpw, hnext]
            exact hwrel2)
          (by
            show ((sl.write + 1) % U32) &&& sl.qmask < 2 ^ e
            rw [hnext]
            exact Nat.mod_lt _ (Nat.pos_pow_of_pos e (by norm_num)))
          (by
            show (sb.write_priv + 1) % U32 + vs.length < U32
            rw [hbpw]
            omega)
          hsucc2
        refine ⟨hres.1, hres.2.1, ?_⟩
        rw [hres.2.2]
        show (sb.write_priv + 1) % U32 + vs.length = sb.write_priv + (v :: vs).length
        rw [hbpw, hlen]
        omega

/-- C1 (amended): from a queue state whose two-phase producer cursors are
in sync with the plain ones (`write_priv = write`, `read_shadow = read`),
staging `k` values with `blq_write_local` and issuing one
`blq_write_publish` leaves the slot array identical to what `k` successful
`lq_write` calls with the same values produce, and leaves the published
write cursor congruent to the plain one modulo the capacity (the plain
cursor is kept reduced below `qlen` while the two-phase cursor free-runs
modulo `2^32`, so on wrap-around the published values differ while their
masked positions agree); the consumer therefore observes the same value
sequence in the same order. -/
theorem c1_batch_plain_equiv (s : Blq) (vs : List Nat) (e : Nat) (t : Blq)
    (he : 1 ≤ e) (he30 : e ≤ 30)
    (hq : s.qlen = 2 ^ e) (hm : s.qmask = 2 ^ e - 1)
    (hwp : s.write_priv = s.write) (hrs : s.read_shadow = s.read)
    (hw : s.write < 2 ^ e)
    (hnov : s.write_priv + vs.length < U32)
    (hspace : vs.length ≤ (blq_wspace s vs.length).1)
    (hsucc : lqWriteList s vs = some t) :
    (∀ j, (batchPublish s vs).q j = t.q j) ∧
    (batchPublish s vs).write % s.qlen = t.write := by
  have haux := c1_aux e he30 vs s s t hm hm rfl
    (by rw [hwp, Nat.mod_eq_of_lt hw]) hw hnov hsucc
  constructor
  · intro j
    show (blqWriteLocalList s vs).q j = t.q j
    rw [haux.1]
  · show (blqWriteLocalList s vs).write_priv % s.qlen = t.write
    rw [hq]
    exact haux.2.1

/-- Concrete state for the C1 counterexample: capacity 16, both write
cursors at 15, both read cursors at 1. -/
def c1s : Blq := ⟨15, 1, 15, 1, 0, 1, 16, 15, fun _ => 0⟩

/-- Counterexample for C1 as stated: at `c1s` the batched path reports
space, the plain write succeeds, the slot arrays agree — but the published
write cursors are 16 (free-running) versus 0 (masked): not identical. -/
theorem c1_counterexample :
    1 ≤ (blq_wspace c1s 1).1 ∧
    (lq_write c1s 42).1 = 0 ∧
    (batchPublish c1s [42]).q 15 = (lq_write c1s 42).2.q 15 ∧
    (batchPublish c1s [42]).write = 16 ∧
    (lq_write c1s 42).2.write = 0 ∧
    (batchPublish c1s [42]).write ≠ (lq_write c1s 42).2.write := by
  refine ⟨by decide, by decide, ?_, by decide, by decide, by decide⟩
  decide

/-- The plain-write result state for the C1 witness run. -/
def c1t : Blq := (lqWriteList (blqFresh 4) [5, 6, 7]).getD blqZero

/-- Witness for C1 on a fresh capacity-16 queue and values `[5, 6, 7]`. -/
theorem c1_witness :
    (∀ j, (batchPublish (blqFresh 4) [5, 6, 7]).q j = c1t.q j) ∧
    (batchPublish (blqFresh 4) [5, 6, 7]).write % (blqFresh 4).qlen = c1t.write :=
  c1_batch_plain_equiv (blqFresh 4) [5, 6, 7] 4 c1t (by decide) (by decide)
    (by decide) (by decide) (by decide) (by decide) (by decide) (by decide)
    (by decide) rfl

/-! ### C10: implicit reserve cap of the two-phase Lamport API -/

theorem usub32_ghost (a b : Nat) (hba : b ≤ a) (hlt : a - b < U32) :
    usub32 (a % U32) (b % U32) = a - b := by
  have h32 : U32 = 4294967296 := U32_eq
  unfold usub32
  rw [h32] at hlt ⊢
  omega

theorem mod_add_one_u32 (a : Nat) : (a % U32 + 1) % U32 = (a + 1) % U32 := by
  have h32 : U32 = 4294967296 := U32_eq
  rw [h32]
  omega

/-- Value of the `blq_wspace` space expression: with the producer cursor
`d` items past the cached read cursor and `d` within the reserve cap, the
32-bit expression `(read_shadow - 8 - write_priv) & qmask` computes
`qlen - 8 - d`. -/
theorem wspaceVal (e R W d : Nat) (he : 1 ≤ e) (he32 : e ≤ 32)
    (hRW : W = R + d) (hd : d ≤ 2 ^ e - 8) :
    usub32 (usub32 (R % U32) 8) (W % U32) &&& (2 ^ e - 1) = 2 ^ e - 8 - d := by
  have hdvd : (2:Nat) ^ e ∣ U32 := by
    show (2:Nat) ^ e ∣ 2 ^ 32
    exact pow_dvd_pow 2 he32
  have hn2 : 2 ≤ (2:Nat) ^ e := by
    calc (2:Nat) = 2 ^ 1 := rfl
    _ ≤ 2 ^ e := Nat.pow_le_pow_right (by norm_num) he
  have hU32pos : 0 < U32 := by rw [U32_eq]; norm_num
  have h8U : (8:Nat) ≤ U32 := by rw [U32_eq]; norm_num
  have hw1 : W % U32 < U32 := Nat.mod_lt _ hU32pos
  rw [land_mask]
  have hA : usub32 (usub32 (R % U32) 8) (W % U32) % 2 ^ e
      = (R % U32 + U32 - 8 + (U32 - W % U32)) % 2 ^ e := by
    unfold usub32
    rw [Nat.mod_mod_of_dvd _ hdvd]
    have e1 : (R % U32 + U32 - 8) % U32 + U32 - W % U32
        = (R % U32 + U32 - 8) % U32 + (U32 - W % U32) := by omega
    rw [e1]
    exact Nat.ModEq.add_right _ (Nat.mod_mod_of_dvd _ hdvd)
  rw [hA]
  have hre : R % U32 ≡ R [MOD 2 ^ e] := Nat.mod_mod_of_dvd R hdvd
  have hwe : W % U32 ≡ R + d [MOD 2 ^ e] := by
    rw [← hRW]
    exact Nat.mod_mod_of_dvd W hdvd
  have hU : U32 ≡ 0 [MOD 2 ^ e] := Nat.modEq_zero_iff_dvd.2 hdvd
  have hT : 2 ^ e - 8 - d + 8 + d ≡ 0 [MOD 2 ^ e] := by
    by_cases h8 : 8 + d ≤ 2 ^ e
    · have hTe : 2 ^ e - 8 - d + 8 + d = 2 ^ e := by omega
      rw [hTe]
      show 2 ^ e % 2 ^ e = 0 % 2 ^ e
      rw [Nat.mod_self, Nat.zero_mod]
    · have hne : (2:Nat) ^ e < 8 := by omega
      have he2 : e ≤ 2 := by
        by_contra hcon
        push_neg at hcon
        have h3 : (2:Nat) ^ 3 ≤ 2 ^ e := Nat.pow_le_pow_right (by norm_num) (by omega)
        norm_num at h3
        omega
      have hd0 : d = 0 := by omega
      have hT0 : 2 ^ e - 8 - d = 0 := by omega
      rw [hT0, hd0]
      have hdvd8 : (2:Nat) ^ e ∣ 8 := by
        have h4 : (2:Nat) ^ e ∣ 2 ^ 3 := pow_dvd_pow 2 (by omega)
        simpa using h4
      have h9 : (8:Nat) ≡ 0 [MOD 2 ^ e] := Nat.modEq_zero_iff_dvd.2 hdvd8
      exact h9
  have hkey : R % U32 + U32 - 8 + (U32 - W % U32) + (8 + d + W % U32)
      = R % U32 + 2 * U32 + d := by omega
  have hlhs : R % U32 + 2 * U32 + d ≡ R + d [MOD 2 ^ e] := by
    have h5 : 2 * U32 ≡ 2 * 0 [MOD 2 ^ e] := hU.mul_left 2
    have h6 := (hre.add h5).add_right d
    simpa using h6
  have hrhs : 2 ^ e - 8 - d + 8 + d + (W % U32) ≡ R + d [MOD 2 ^ e] := by
    have h7 := hT.add hwe
    simpa using h7
  have hmain : R % U32 + U32 - 8 + (U32 - W % U32) + (8 + d + W % U32)
      ≡ 2 ^ e - 8 - d + (8 + d + W % U32) [MOD 2 ^ e] := by
    rw [hkey]
    have hr2 : 2 ^ e - 8 - d + (8 + d + W % U32) = 2 ^ e - 8 - d + 8 + d + W % U32 := by
      omega
    rw [hr2]
    exact hlhs.trans hrhs.symm
  have hcancel : R % U32 + U32 - 8 + (U32 - W % U32) ≡ 2 ^ e - 8 - d [MOD 2 ^ e] :=
    Nat.ModEq.add_right_cancel' _ hmain
  have hTlt : 2 ^ e - 8 - d < 2 ^ e := by omega
  calc (R % U32 + U32 - 8 + (U32 - W % U32)) % 2 ^ e
      = (2 ^ e - 8 - d) % 2 ^ e := hcancel
  _ = 2 ^ e - 8 - d := Nat.mod_eq_of_lt hTlt

/-- Ghost protocol state: the queue together with the producer and
consumer budgets granted by the last `blq_wspace`/`blq_rspace` call. -/
structure BlqP where
  s : Blq
  wbudget : Nat
  rbudget : Nat

/-- One step of the documented two-phase protocol: space queries grant
budgets, local writes/reads consume them, publishes are always allowed. -/
inductive BlqStep : BlqP → BlqP → Prop where
  | wspace (p : BlqP) (n : Nat) :
      BlqStep p ⟨(blq_wspace p.s n).2, (blq_wspace p.s n).1, p.rbudget⟩
  | write_local (p : BlqP) (m : Nat) (h : 0 < p.wbudget) :
      BlqStep p ⟨blq_write_local p.s m, p.wbudget - 1, p.rbudget⟩
  | write_publish (p : BlqP) :
      BlqStep p ⟨blq_write_publish p.s, p.wbudget, p.rbudget⟩
  | rspace (p : BlqP) (n : Nat) :
      BlqStep p ⟨(blq_rspace p.s n).2, p.wbudget, (blq_rspace p.s n).1⟩
  | read_local (p : BlqP) (h : 0 < p.rbudget) :
      BlqStep p ⟨(blq_read_local p.s).2, p.wbudget, p.rbudget - 1⟩
  | read_publish (p : BlqP) :
      BlqStep p ⟨blq_read_publish p.s, p.wbudget, p.rbudget⟩

/-- States reachable under the documented protocol from a freshly
initialized, zeroed queue of some power-of-two capacity. -/
inductive BlqReach : BlqP → Prop where
  | init (e : Nat) (he : 1 ≤ e) (he30 : e ≤ 30) : BlqReach ⟨blqFresh e, 0, 0⟩
  | step (p q : BlqP) : BlqReach p → BlqStep p q → BlqReach q

/-- Inductive invariant of the two-phase protocol: the six cursors are the
32-bit images of monotone ghost counters in circular order, the producer
budget plus the outstanding items never exceed `qlen - 8`, and the
consumer budget never exceeds the consumer window. -/
def blqInv (p : BlqP) : Prop :=
  ∃ e R0 R1 R2 W3 W4 W5 : Nat,
    1 ≤ e ∧ e ≤ 30 ∧ p.s.qlen = 2 ^ e ∧ p.s.qmask = 2 ^ e - 1 ∧
    R0 ≤ R1 ∧ R1 ≤ R2 ∧ R2 ≤ W3 ∧ W3 ≤ W4 ∧ W4 ≤ W5 ∧
    p.s.read_shadow = R0 % U32 ∧ p.s.read = R1 % U32 ∧ p.s.read_priv = R2 % U32 ∧
    p.s.write_shadow = W3 % U32 ∧ p.s.write = W4 % U32 ∧ p.s.write_priv = W5 % U32 ∧
    p.wbudget + (W5 - R0) ≤ 2 ^ e - 8 ∧ p.rbudget ≤ W3 - R2

theorem u32_big : (1073741824 : Nat) < U32 := by
  rw [U32_eq]
  norm_num

theorem two_pow_30 (e : Nat) (he30 : e ≤ 30) : (2:Nat) ^ e ≤ 1073741824 := by
  calc (2:Nat) ^ e ≤ 2 ^ 30 := Nat.pow_le_pow_right (by norm_num) he30
  _ = 1073741824 := by norm_num

theorem wspace_inv (p : BlqP) (hinv : blqInv p) (n : Nat) :
    blqInv ⟨(blq_wspace p.s n).2, (blq_wspace p.s n).1, p.rbudget⟩ ∧
    (blq_wspace p.s n).1 ≤ p.s.qlen - 8 := by
  obtain ⟨e, R0, R1, R2, W3, W4, W5, he, he30, hql, hqm, h01, h12, h23, h34, h45,
    hrs0, hr1, hr2, hw3, hw4, hw5, hwb, hrb⟩ := hinv
  have he32 : e ≤ 32 := by omega
  have hval0 : usub32 (usub32 p.s.read_shadow LINE_ENTRIES) p.s.write_priv &&& p.s.qmask
      = 2 ^ e - 8 - (W5 - R0) := by
    rw [hrs0, hw5, hqm]
    exact wspaceVal e R0 W5 (W5 - R0) he he32 (by omega) (by omega)
  have hval1 : usub32 (usub32 p.s.read LINE_ENTRIES) p.s.write_priv &&& p.s.qmask
      = 2 ^ e - 8 - (W5 - R1) := by
    rw [hr1, hw5, hqm]
    exact wspaceVal e R1 W5 (W5 - R1) he he32 (by omega) (by omega)
  by_cases hbr : n ≤ usub32 (usub32 p.s.read_shadow LINE_ENTRIES) p.s.write_priv &&& p.s.qmask
  · have heq : blq_wspace p.s n =
        (usub32 (usub32 p.s.read_shadow LINE_ENTRIES) p.s.write_priv &&& p.s.qmask, p.s) := by
      unfold blq_wspace
      rw [if_pos hbr]
    rw [heq]
    constructor
    · refine ⟨e, R0, R1, R2, W3, W4, W5, he, he30, hql, hqm, h01, h12, h23, h34, h45,
        hrs0, hr1, hr2, hw3, hw4, hw5, ?_, hrb⟩
      show (usub32 (usub32 p.s.read_shadow LINE_ENTRIES) p.s.write_priv &&& p.s.qmask)
          + (W5 - R0) ≤ 2 ^ e - 8
      rw [hval0]
      omega
    · show usub32 (usub32 p.s.read_shadow LINE_ENTRIES) p.s.write_priv &&& p.s.qmask
          ≤ p.s.qlen - 8
      rw [hval0, hql]
      omega
  · have heq : blq_wspace p.s n =
        (usub32 (usub32 p.s.read LINE_ENTRIES) p.s.write_priv &&& p.s.qmask,
         { p.s with read_shadow := p.s.read }) := by
      unfold blq_wspace
      rw [if_neg hbr]
    rw [heq]
    constructor
    · refine ⟨e, R1, R1, R2, W3, W4, W5, he, he30, hql, hqm, Nat.le_refl _, h12, h23,
        h34, h45, ?_, hr1, hr2, hw3, hw4, hw5, ?_, hrb⟩
      · show p.s.read = R1 % U32
        exact hr1
      · show (usub32 (usub32 p.s.read LINE_ENTRIES) p.s.write_priv &&& p.s.qmask)
            + (W5 - R1) ≤ 2 ^ e - 8
        rw [hval1]
        omega
    · show usub32 (usub32 p.s.read LINE_ENTRIES) p.s.write_priv &&& p.s.qmask
          ≤ p.s.qlen - 8
      rw [hval1, hql]
      omega

theorem blqInv_init (e : Nat) (he : 1 ≤ e) (he30 : e ≤ 30) :
    blqInv ⟨blqFresh e, 0, 0⟩ := by
  have hfe := blqFresh_eq e he
  refine ⟨e, 0, 0, 0, 0, 0, 0, he, he30, ?_, ?_, Nat.le_refl _, Nat.le_refl _,
    Nat.le_refl _, Nat.le_refl _, Nat.le_refl _, ?_, ?_, ?_, ?_, ?_, ?_,
    Nat.zero_le _, Nat.le_refl _⟩
  · show (blqFresh e).qlen = 2 ^ e
    rw [hfe]
    rfl
  · show (blqFresh e).qmask = 2 ^ e - 1
    rw [hfe]
    rfl
  · show (blqFresh e).read_shadow = 0 % U32
    rw [hfe, Nat.zero_mod]
    rfl
  · show (blqFresh e).read = 0 % U32
    rw [hfe, Nat.zero_mod]
    rfl
  · show (blqFresh e).read_priv = 0 % U32
    rw [hfe, Nat.zero_mod]
    rfl
  · show (blqFresh e).write_shadow = 0 % U32
    rw [hfe, Nat.zero_mod]
    rfl
  · show (blqFresh e).write = 0 % U32
    rw [hfe, Nat.zero_mod]
    rfl
  · show (blqFresh e).write_priv = 0 % U32
    rw [hfe, Nat.zero_mod]
    rfl

theorem blqInv_step (p q : BlqP) (hinv : blqInv p) (hs : BlqStep p q) : blqInv q := by
  cases hs with
  | wspace n =>
      exact (wspace_inv p hinv n).1
  | write_local m h =>
      obtain ⟨e, R0, R1, R2, W3, W4, W5, he, he30, hql, hqm, h01, h12, h23, h34, h45,
        hrs0, hr1, hr2, hw3, hw4, hw5, hwb, hrb⟩ := hinv
      refine ⟨e, R0, R1, R2, W3, W4, W5 + 1, he, he30, hql, hqm, h01, h12, h23, h34,
        by omega, hrs0, hr1, hr2, hw3, hw4, ?_, ?_, hrb⟩
      · show (p.s.write_priv + 1) % U32 = (W5 + 1) % U32
        rw [hw5]
        exact mod_add_one_u32 W5
      · show p.wbudget - 1 + (W5 + 1 - R0) ≤ 2 ^ e - 8
        omega
  | write_publish =>
      obtain ⟨e, R0, R1, R2, W3, W4, W5, he, he30, hql, hqm, h01, h12, h23, h34, h45,
        hrs0, hr1, hr2, hw3, hw4, hw5, hwb, hrb⟩ := hinv
      exact ⟨e, R0, R1, R2, W3, W5, W5, he, he30, hql, hqm, h01, h12, h23, by omega,
        Nat.le_refl _, hrs0, hr1, hr2, hw3, hw5, hw5, hwb, hrb⟩
  | rspace n =>
      obtain ⟨e, R0, R1, R2, W3, W4, W5, he, he30, hql, hqm, h01, h12, h23, h34, h45,
        hrs0, hr1, hr2, hw3, hw4, hw5, hwb, hrb⟩ := hinv
      have hfit : W5 - R0 < U32 := by
        have h30 := two_pow_30 e he30
        have hb := u32_big
        omega
      by_cases hbr : n ≤ usub32 p.s.write_shadow p.s.read_priv
      · have hsp0 : usub32 p.s.write_shadow p.s.read_priv = W3 - R2 := by
          rw [hw3, hr2]
          exact usub32_ghost W3 R2 h23 (by omega)
        have heq : blq_rspace p.s n = (usub32 p.s.write_shadow p.s.read_priv, p.s) := by
          unfold blq_rspace
          rw [if_pos hbr]
        rw [heq]
        refine ⟨e, R0, R1, R2, W3, W4, W5, he, he30, hql, hqm, h01, h12, h23, h34, h45,
          hrs0, hr1, hr2, hw3, hw4, hw5, hwb, ?_⟩
        show usub32 p.s.write_shadow p.s.read_priv ≤ W3 - R2
        rw [hsp0]
      · have hsp1 : usub32 p.s.write p.s.read_priv = W4 - R2 := by
          rw [hw4, hr2]
          exact usub32_ghost W4 R2 (by omega) (by omega)
        have heq : blq_rspace p.s n =
            (usub32 p.s.write p.s.read_priv, { p.s with write_shadow := p.s.write }) := by
          unfold blq_rspace
          rw [if_neg hbr]
        rw [heq]
        refine ⟨e, R0, R1, R2, W4, W4, W5, he, he30, hql, hqm, h01, h12, by omega,
          Nat.le_refl _, h45, hrs0, hr1, hr2, ?_, hw4, hw5, hwb, ?_⟩
        · show p.s.write = W4 % U32
          exact hw4
        · show usub32 p.s.write p.s.read_priv ≤ W4 - R2
          rw [hsp1]
  | read_local h =>
      obtain ⟨e, R0, R1, R2, W3, W4, W5, he, he30, hql, hqm, h01, h12, h23, h34, h45,
        hrs0, hr1, hr2, hw3, hw4, hw5, hwb, hrb⟩ := hinv
      refine ⟨e, R0, R1, R2 + 1, W3, W4, W5, he, he30, hql, hqm, h01, by omega,
        by omega, h34, h45, hrs0, hr1, ?_, hw3, hw4, hw5, hwb,
        by show p.rbudget - 1 ≤ W3 - (R2 + 1); omega⟩
      show (p.s.read_priv + 1) % U32 = (R2 + 1) % U32
      rw [hr2]
      exact mod_add_one_u32 R2
  | read_publish =>
      obtain ⟨e, R0, R1, R2, W3, W4, W5, he, he30, hql, hqm, h01, h12, h23, h34, h45,
        hrs0, hr1, hr2, hw3, hw4, hw5, hwb, hrb⟩ := hinv
      exact ⟨e, R0, R2, R2, W3, W4, W5, he, he30, hql, hqm, by omega, Nat.le_refl _,
        h23, h34, h45, hrs0, hr2, hr2, hw3, hw4, hw5, hwb, hrb⟩

/-- C10: in every state reachable under the documented two-phase protocol,
`blq_wspace` returns at most `qlen - 8` slots — one cache line of slots is
permanently withheld from the two-phase producer — and the queue never
holds more than `qlen - 8` unread items (`write_priv - read` in 32-bit
arithmetic) through this API. -/
theorem c10_wspace_cap (p : BlqP) (hreach : BlqReach p) (n : Nat) :
    (blq_wspace p.s n).1 ≤ p.s.qlen - 8 ∧
    usub32 p.s.write_priv p.s.read ≤ p.s.qlen - 8 := by
  have hinv : blqInv p := by
    induction hreach with
    | init e he he30 => exact blqInv_init e he he30
    | step p q hp hs ih => exact blqInv_step p q ih hs
  refine ⟨(wspace_inv p hinv n).2, ?_⟩
  obtain ⟨e, R0, R1, R2, W3, W4, W5, he, he30, hql, hqm, h01, h12, h23, h34, h45,
    hrs0, hr1, hr2, hw3, hw4, hw5, hwb, hrb⟩ := hinv
  have h30 := two_pow_30 e he30
  have hb := u32_big
  rw [hw5, hr1, usub32_ghost W5 R1 (by omega) (by omega), hql]
  omega

/-- Witness for C10 at the freshly initialized capacity-16 queue. -/
theorem c10_witness :
    (blq_wspace (blqFresh 4) 16).1 ≤ (blqFresh 4).qlen - 8 ∧
    usub32 (blqFresh 4).write_priv (blqFresh 4).read ≤ (blqFresh 4).qlen - 8 :=
  c10_wspace_cap ⟨blqFresh 4, 0, 0⟩ (BlqReach.init 4 (by decide) (by decide)) 16

/-- Concrete full Lamport queue (capacity 2, one item) for the C9 witness. -/
def c9full : Blq := ⟨0, 0, 1, 0, 0, 0, 2, 1, fun _ => 5⟩

/-- Witness for C9: a failing `lq_write` leaves the state untouched. -/
theorem c9_witness : (lq_write c9full 7).2 = c9full :=
  c9_failure_atomicity.1 c9full 7 (by decide)

end Spscq
